import Mathlib

/-!
Verification of the Codeless v4 compiler pipeline: a shallow embedding in
Lean 4 of the tokenizer, raw-body extractor, parser, module resolver,
validation lowering and SQL statement templating, together with proofs and
refutations of the specified properties.

Conventions used throughout:
* JS strings are modelled as `List Char` where character-level scanning
  matters (lexer, raw-body extraction, parser input), and as `String` for
  assembled text (SQL, error messages, token values).
* Fallible JS code (functions that `throw`) is modelled with `Except`.
* Loops are modelled by structural recursion; where the original loop is
  not structurally recursive, a fuel argument bounds the iteration count,
  with the fuel chosen so that it never runs out on inputs where the
  original terminates.
* JS `Number` coercion is modelled for integer-valued inputs (the only
  numeric values the schema language's bounds use); fractional literals are
  treated as non-numeric.
-/

namespace Codeless

/-! ### Small generic helpers -/

/-- Does the pattern occur as a contiguous run inside the list?  Used to
state that an error message names (or does not name) a file or field. -/
def containsSeq (pat : List Char) : List Char → Bool
  | [] => pat.isEmpty
  | c :: cs => List.isPrefixOf pat (c :: cs) || containsSeq pat cs

/-- A string names another when the latter occurs contiguously inside it. -/
def mentions (msg : String) (nm : String) : Bool :=
  containsSeq nm.data msg.data

theorem isPrefixOf_append_self (l b : List Char) :
    List.isPrefixOf l (l ++ b) = true := by
  induction l with
  | nil => simp [List.isPrefixOf]
  | cons c cs ih => simp [List.isPrefixOf, ih]

/-- A pattern occurs in any list that it sits inside contiguously. -/
theorem containsSeq_mid (pat a b : List Char) :
    containsSeq pat (a ++ (pat ++ b)) = true := by
  induction a with
  | nil =>
    simp only [List.nil_append]
    cases pat with
    | nil =>
      cases b with
      | nil => rfl
      | cons c cs => simp [containsSeq, List.isPrefixOf]
    | cons p ps =>
      simp [containsSeq, isPrefixOf_append_self (p :: ps) b]
  | cons c cs ih =>
    simp [containsSeq, ih]

/-! ### Statement templating (QueryBuilder `insertSql`)

Source: the query-builder module.  `insertSql(table, columns, adapter)`
builds the INSERT text, with `?` placeholders for sqlite and `$1..$n`
placeholders plus `RETURNING id` for postgres.  Column and placeholder
lists are joined with `", "` (comma and space). -/

/-- The two supported relational dialects. -/
inductive Adapter
  | sqlite
  | postgres
deriving DecidableEq

/-- JS `array.join(', ')`: elements separated by a comma and a space. -/
def joinCS : List String → String
  | [] => ""
  | [x] => x
  | x :: y :: rest => x ++ ", " ++ joinCS (y :: rest)

/-- `\"${c}\"`: wrap an identifier in double quotes. -/
def quoteId (c : String) : String := "\"" ++ c ++ "\""

/-- `insertSql` from the query builder: `INSERT INTO "t" (cols) VALUES
(params)` with dialect-specific placeholders and returning clause. -/
def insertSql (table : String) (columns : List String) (adapter : Adapter) :
    String :=
  let cols := joinCS (columns.map quoteId)
  let params :=
    if adapter = Adapter.sqlite then joinCS (columns.map (fun _ => "?"))
    else joinCS ((List.range columns.length).map (fun i => "$" ++ toString (i + 1)))
  let returning := if adapter = Adapter.postgres then " RETURNING id" else ""
  "INSERT INTO \"" ++ table ++ "\" (" ++ cols ++ ") VALUES (" ++ params ++ ")"
    ++ returning

theorem containsSeq_nil_pat (l : List Char) : containsSeq [] l = true := by
  cases l with
  | nil => rfl
  | cons c cs => simp [containsSeq, List.isPrefixOf]

theorem isPrefixOf_mono_append {p l : List Char} (r : List Char)
    (h : List.isPrefixOf p l = true) : List.isPrefixOf p (l ++ r) = true := by
  induction p generalizing l with
  | nil => simp [List.isPrefixOf]
  | cons a as ih =>
    cases l with
    | nil => simp [List.isPrefixOf] at h
    | cons c cs =>
      simp only [List.isPrefixOf, List.cons_append, Bool.and_eq_true] at h ⊢
      exact ⟨h.1, ih h.2⟩

theorem containsSeq_append_right {pat l : List Char} (r : List Char)
    (h : containsSeq pat l = true) : containsSeq pat (l ++ r) = true := by
  induction l with
  | nil =>
    simp only [containsSeq, List.isEmpty_iff] at h
    subst h
    exact containsSeq_nil_pat r
  | cons c cs ih =>
    simp only [containsSeq, Bool.or_eq_true] at h ⊢
    rcases h with h | h
    · exact Or.inl (isPrefixOf_mono_append r h)
    · exact Or.inr (ih h)

theorem containsSeq_append_left {pat l : List Char} (a : List Char)
    (h : containsSeq pat l = true) : containsSeq pat (a ++ l) = true := by
  induction a with
  | nil => simpa using h
  | cons c cs ih => simp [containsSeq, ih]

theorem joinCS_containsSeq {x : String} {l : List String} (hx : x ∈ l) :
    containsSeq x.data (joinCS l).data = true := by
  induction l with
  | nil => cases hx
  | cons y rest ih =>
    rcases List.mem_cons.mp hx with rfl | hmem
    · cases rest with
      | nil =>
        simpa [joinCS] using containsSeq_mid x.data [] []
      | cons z zs =>
        simpa [joinCS] using
          containsSeq_append_right ((", " ++ joinCS (z :: zs)).data)
            (by simpa using containsSeq_mid x.data [] [])
    · cases rest with
      | nil => cases hmem
      | cons z zs =>
        have := ih hmem
        simpa [joinCS] using containsSeq_append_left (y ++ ", ").data (by simpa [joinCS] using this)

theorem count_joinCS_quote (cs : List String)
    (h : ∀ c ∈ cs, '?' ∉ c.data) :
    ((joinCS (cs.map quoteId)).data.count '?') = 0 := by
  induction cs with
  | nil => rfl
  | cons c rest ih =>
    have hc : '?' ∉ c.data := h c (List.mem_cons_self c rest)
    have hrest : ∀ x ∈ rest, '?' ∉ x.data := fun x hx => h x (List.mem_cons_of_mem c hx)
    cases rest with
    | nil =>
      simp [joinCS, quoteId, List.count_eq_zero, hc]
    | cons d ds =>
      have := ih hrest
      simp only [List.map_cons, joinCS, String.data_append, List.count_append,
        quoteId] at this ⊢
      simp_all [List.count_eq_zero, List.count_cons]

theorem count_joinCS_qmarks (cs : List String) :
    ((joinCS (cs.map (fun _ => "?"))).data.count '?') = cs.length := by
  induction cs with
  | nil => rfl
  | cons c rest ih =>
    cases rest with
    | nil => rfl
    | cons d ds =>
      simp only [List.map_cons, joinCS, String.data_append, List.count_append] at ih ⊢
      simp_all [List.count_cons]
      omega

/-- Claim C2, counterexample: for schema `Task{title, done}` under the
sqlite dialect, the generated text is not the claimed exact string — the
column and placeholder lists are joined with a comma and a space, not a
bare comma. -/
theorem claim_C2_counterexample :
    insertSql "Task" ["title", "done"] Adapter.sqlite ≠
      "INSERT INTO \"Task\" (\"title\",\"done\") VALUES (?,?)" := by
  decide

/-- Claim C2 (amended): joining is with `", "`.  Concretely, for
`Task{title, done}` the sqlite text is
`INSERT INTO "Task" ("title", "done") VALUES (?, ?)` and the postgres text
is `INSERT INTO "Task" ("title", "done") VALUES ($1, $2) RETURNING id`;
in general the sqlite text has one `?` per column and no RETURNING clause,
and the postgres text mentions `$1..$n` and ends with `RETURNING id`. -/
theorem claim_C2_theorem (t : String) (cs : List String)
    (h1 : '?' ∉ t.data) (h2 : ∀ c ∈ cs, '?' ∉ c.data) :
    insertSql "Task" ["title", "done"] Adapter.sqlite =
      "INSERT INTO \"Task\" (\"title\", \"done\") VALUES (?, ?)"
    ∧ insertSql "Task" ["title", "done"] Adapter.postgres =
      "INSERT INTO \"Task\" (\"title\", \"done\") VALUES ($1, $2) RETURNING id"
    ∧ (insertSql t cs Adapter.sqlite).data.count '?' = cs.length
    ∧ (∀ a : List Char, (insertSql t cs Adapter.sqlite).data ≠ a ++ (" RETURNING id").data)
    ∧ (∃ a : List Char, (insertSql t cs Adapter.postgres).data = a ++ (" RETURNING id").data)
    ∧ (∀ i, i < cs.length →
        mentions (insertSql t cs Adapter.postgres) ("$" ++ toString (i + 1)) = true) := by
  have hsq : (insertSql t cs Adapter.sqlite).data =
      "INSERT INTO \"".data ++ t.data ++ "\" (".data
        ++ (joinCS (cs.map quoteId)).data ++ ") VALUES (".data
        ++ (joinCS (cs.map (fun _ => "?"))).data ++ [')'] := by
    simp [insertSql, String.data_append]
  have hpg : (insertSql t cs Adapter.postgres).data =
      "INSERT INTO \"".data ++ t.data ++ "\" (".data
        ++ (joinCS (cs.map quoteId)).data ++ ") VALUES (".data
        ++ (joinCS ((List.range cs.length).map (fun i => "$" ++ toString (i + 1)))).data
        ++ (") RETURNING id").data := by
    simp [insertSql, String.data_append]
  refine ⟨by decide, by decide, ?_, ?_, ?_, ?_⟩
  · rw [hsq]
    simp only [List.count_append]
    rw [List.count_eq_zero.mpr h1, count_joinCS_quote cs h2, count_joinCS_qmarks cs]
    simp [List.count_cons]
  · intro a hEq
    have hlast : ((insertSql t cs Adapter.sqlite).data).getLast? =
        (a ++ (" RETURNING id").data).getLast? := by rw [hEq]
    rw [hsq] at hlast
    rw [List.getLast?_append_of_ne_nil _ (by decide)] at hlast
    have : (List.getLast? [')']) = some ')' := rfl
    rw [List.getLast?_append_of_ne_nil _ (by decide :
      (" RETURNING id").data ≠ [])] at hlast
    simp at hlast
  · refine ⟨"INSERT INTO \"".data ++ t.data ++ "\" (".data
      ++ (joinCS (cs.map quoteId)).data ++ ") VALUES (".data
      ++ (joinCS ((List.range cs.length).map (fun i => "$" ++ toString (i + 1)))).data
      ++ [')'], ?_⟩
    rw [hpg]
    simp
  · intro i hi
    have hmem : ("$" ++ toString (i + 1)) ∈
        (List.range cs.length).map (fun j => "$" ++ toString (j + 1)) :=
      List.mem_map.mpr ⟨i, List.mem_range.mpr hi, rfl⟩
    have hjoin := joinCS_containsSeq hmem
    unfold mentions
    rw [hpg]
    have step1 := containsSeq_append_right (") RETURNING id").data hjoin
    have step2 := containsSeq_append_left
      ("INSERT INTO \"".data ++ t.data ++ "\" (".data
        ++ (joinCS (cs.map quoteId)).data ++ ") VALUES (".data) step1
    simpa using step2

/-- Witness for `claim_C2_theorem` at the `Task{title, done}` schema. -/
theorem claim_C2_witness :
    ('?' ∉ ("Task" : String).data)
    ∧ insertSql "Task" ["title", "done"] Adapter.sqlite =
      "INSERT INTO \"Task\" (\"title\", \"done\") VALUES (?, ?)" :=
  ⟨by decide, ( claim_C2_theorem "Task" ["title", "done"] (by decide) (by decide)).1⟩

/-! ### Raw-body extraction (`source-utils`: `locateBraceInSource`,
`extractRawBlock`)

The extractor works on raw source text; we model JS strings as `List Char`.
Failure by `throw` is modelled as `none`. -/

/-- The backslash character (spelled by code point to keep source plain). -/
def bslash : Char := Char.ofNat 92

theorem bslash_ne_dquote : (bslash = '"') = False := by decide

/-- The single-quote character. -/
def squote : Char := Char.ofNat 39

/-- The backtick character. -/
def btick : Char := Char.ofNat 96

/-- The three JS quote characters recognized by the extractor. -/
def isQuoteChar (c : Char) : Bool := c = '"' || c = squote || c = btick

/-- The character class of the JS `\s` regular-expression escape and of
`String.trim`: whitespace and line terminators. -/
def jsWsCodes : List Nat :=
  [9, 10, 11, 12, 13, 32, 160, 0x1680, 0x2000, 0x2001, 0x2002, 0x2003,
    0x2004, 0x2005, 0x2006, 0x2007, 0x2008, 0x2009, 0x200a, 0x2028, 0x2029,
    0x202f, 0x205f, 0x3000, 0xfeff]

/-- Is the character JS whitespace? -/
def isJsWs (c : Char) : Bool := jsWsCodes.contains c.toNat

/-- JS `String.trim` on a character list. -/
def jsTrim (l : List Char) : List Char :=
  ((l.dropWhile isJsWs).reverse.dropWhile isJsWs).reverse

/-- Offset of the first `{` in the list (the list's length when none):
the inner forward scan of `locateBraceInSource`. -/
def braceOffset : List Char → Nat
  | [] => 0
  | c :: cs => if c = '{' then 0 else braceOffset cs + 1

/-- The line-counting loop of `locateBraceInSource`: once `currentLine`
equals the requested line, return the index of the next `{` at or after
this position (which may lie on a later line, or be the source length). -/
def locateAux (target : Nat) : List Char → Nat → Nat → Option Nat
  | [], _, _ => none
  | c :: cs, i, cur =>
    if cur = target then some (i + braceOffset (c :: cs))
    else locateAux target cs (i + 1) (if c = '\n' then cur + 1 else cur)

/-- `locateBraceInSource(source, line)`; `none` models the thrown
`Line ... not found in source` error. -/
def locateBraceInSource (source : List Char) (line : Nat) : Option Nat :=
  locateAux line source 0 1

/-- The inner quote-skipping loop of `extractRawBlock`: consume characters
up to and including the closing quote `q`; a backslash consumes the
following character as a pair.  Returns the remainder after the region. -/
def skipQuoted (q : Char) : List Char → List Char
  | [] => []
  | [_] => []
  | c :: d :: ds =>
    if c = bslash then skipQuoted q ds
    else if c = q then d :: ds
    else skipQuoted q (d :: ds)

theorem skipQuoted_length_le (q : Char) :
    ∀ l : List Char, (skipQuoted q l).length ≤ l.length := by
  have key : ∀ n (l : List Char), l.length ≤ n →
      (skipQuoted q l).length ≤ l.length := by
    intro n
    induction n with
    | zero =>
      intro l hl
      cases l with
      | nil => simp [skipQuoted]
      | cons c cs => simp at hl
    | succ n ih =>
      intro l hl
      cases l with
      | nil => simp [skipQuoted]
      | cons c cs =>
        cases cs with
        | nil => simp [skipQuoted]
        | cons d ds =>
          have h2 : (c :: d :: ds).length = ds.length + 2 := rfl
          by_cases hb : c = bslash
          · have hrec := ih ds (by simp at hl; omega)
            simp only [skipQuoted, if_pos hb]
            omega
          · by_cases hq : c = q
            · simp only [skipQuoted, if_neg hb, if_pos hq]
              have h1 : (d :: ds).length = ds.length + 1 := rfl
              omega
            · have h1 : (d :: ds).length = ds.length + 1 := rfl
              have hrec := ih (d :: ds) (by simp at hl; omega)
              simp only [skipQuoted, if_neg hb, if_neg hq]
              omega
  exact fun l => key l.length l le_rfl

/-- The outer loop of `extractRawBlock`: a brace-depth counter, with
quote-aware skipping; returns the characters remaining just past the
closing brace that returns the depth to zero (`none` when the input ends
first, modelling the `Unbalanced braces` throw). -/
def scanBlock : Nat → List Char → Option (List Char)
  | depth, [] => if depth = 0 then some [] else none
  | depth, c :: cs =>
    if depth = 0 then some (c :: cs)
    else if isQuoteChar c then scanBlock depth (skipQuoted c cs)
    else if c = '{' then scanBlock (depth + 1) cs
    else if c = '}' then scanBlock (depth - 1) cs
    else scanBlock depth cs
termination_by _ l => l.length
decreasing_by
  · exact Nat.lt_of_le_of_lt (skipQuoted_length_le c cs) (by simp)
  · simp
  · simp
  · simp

/-- `extractRawBlock(source, openBraceIndex)`: the trimmed text strictly
between the opening brace and its matching closing brace, and the offset
just past the closing brace. -/
def extractRawBlock (source : List Char) (openIdx : Nat) :
    Option (List Char × Nat) :=
  let tail := source.drop (openIdx + 1)
  match scanBlock 1 tail with
  | none => none
  | some rest =>
    let consumed := tail.length - rest.length
    some (jsTrim (tail.take (consumed - 1)), openIdx + 1 + consumed)

/-- Scanner mode of the specification's state machine: outside quotes, or
inside a quoted region with an escape flag. -/
inductive ScanMode
  | top
  | inQ (q : Char) (esc : Bool)
deriving DecidableEq

/-- One character of the scan exactly as the spec words it: braces adjust
depth only outside quoted regions; inside a quoted region a backslash sets
the escape flag and the following character is consumed blindly. -/
def specStep : Nat × ScanMode → Char → Nat × ScanMode
  | (d, ScanMode.top), c =>
    if isQuoteChar c then (d, ScanMode.inQ c false)
    else if c = '{' then (d + 1, ScanMode.top)
    else if c = '}' then (d - 1, ScanMode.top)
    else (d, ScanMode.top)
  | (d, ScanMode.inQ q esc), c =>
    if esc then (d, ScanMode.inQ q false)
    else if c = bslash then (d, ScanMode.inQ q true)
    else if c = q then (d, ScanMode.top)
    else (d, ScanMode.inQ q false)

/-- Run the specification machine until the depth first returns to zero;
`none` when the input is exhausted before that happens. -/
def specScan : Nat → ScanMode → List Char → Option (List Char)
  | depth, _, [] => if depth = 0 then some [] else none
  | depth, m, c :: cs =>
    if depth = 0 then some (c :: cs)
    else specScan (specStep (depth, m) c).1 (specStep (depth, m) c).2 cs

/-- Reference extractor built on the specification machine. -/
def specExtract (source : List Char) (openIdx : Nat) :
    Option (List Char × Nat) :=
  let tail := source.drop (openIdx + 1)
  match specScan 1 ScanMode.top tail with
  | none => none
  | some rest =>
    let consumed := tail.length - rest.length
    some (jsTrim (tail.take (consumed - 1)), openIdx + 1 + consumed)

theorem scanBlock_zero (l : List Char) : scanBlock 0 l = some l := by
  cases l with
  | nil => simp [scanBlock]
  | cons c cs => simp [scanBlock]

theorem specScan_zero (m : ScanMode) (l : List Char) :
    specScan 0 m l = some l := by
  cases l with
  | nil => simp [specScan]
  | cons c cs => simp [specScan]

theorem specScan_nil (depth : Nat) (m : ScanMode) (hd : depth ≠ 0) :
    specScan depth m [] = none := by
  simp [specScan, hd]

theorem specScan_cons (depth : Nat) (m : ScanMode) (c : Char) (cs : List Char)
    (hd : depth ≠ 0) :
    specScan depth m (c :: cs) =
      specScan (specStep (depth, m) c).1 (specStep (depth, m) c).2 cs := by
  simp [specScan, hd]

theorem specStep_inQ_esc (d : Nat) (q c : Char) :
    specStep (d, ScanMode.inQ q true) c = (d, ScanMode.inQ q false) := rfl

theorem specStep_inQ_bslash (d : Nat) (q : Char) :
    specStep (d, ScanMode.inQ q false) bslash = (d, ScanMode.inQ q true) := by
  simp [specStep]

theorem specStep_inQ_close (d : Nat) (q : Char) (hb : ¬ q = bslash) :
    specStep (d, ScanMode.inQ q false) q = (d, ScanMode.top) := by
  simp [specStep, hb]

theorem specStep_inQ_other (d : Nat) (q c : Char) (h1 : ¬ c = bslash)
    (h2 : ¬ c = q) :
    specStep (d, ScanMode.inQ q false) c = (d, ScanMode.inQ q false) := by
  simp [specStep, h1, h2]

theorem specStep_top_quote (d : Nat) (c : Char) (h : isQuoteChar c = true) :
    specStep (d, ScanMode.top) c = (d, ScanMode.inQ c false) := by
  simp [specStep, h]

/-- Skipping a quoted region agrees with running the specification machine
in quote mode. -/
theorem quote_skip_spec (q : Char) :
    ∀ l : List Char, ∀ depth : Nat, depth ≠ 0 →
      specScan depth (ScanMode.inQ q false) l =
        specScan depth ScanMode.top (skipQuoted q l) := by
  have key : ∀ n (l : List Char), l.length ≤ n → ∀ depth : Nat, depth ≠ 0 →
      specScan depth (ScanMode.inQ q false) l =
        specScan depth ScanMode.top (skipQuoted q l) := by
    intro n
    induction n with
    | zero =>
      intro l hl depth hd
      cases l with
      | nil => simp [skipQuoted, specScan_nil, hd]
      | cons c cs => simp at hl
    | succ n ih =>
      intro l hl depth hd
      cases l with
      | nil => simp [skipQuoted, specScan_nil, hd]
      | cons c cs =>
        cases cs with
        | nil =>
          rw [specScan_cons depth _ c [] hd]
          have hskip : skipQuoted q [c] = [] := by simp [skipQuoted]
          rw [hskip, specScan_nil depth ScanMode.top hd]
          by_cases hb : c = bslash
          · subst hb
            rw [specStep_inQ_bslash]
            exact specScan_nil depth _ hd
          · by_cases hq : c = q
            · subst hq
              rw [specStep_inQ_close depth c hb]
              exact specScan_nil depth _ hd
            · rw [specStep_inQ_other depth q c hb hq]
              exact specScan_nil depth _ hd
        | cons d ds =>
          have hlen : (c :: d :: ds).length = ds.length + 2 := rfl
          by_cases hb : c = bslash
          · have hrec := ih ds (by omega) depth hd
            subst hb
            have hskip : skipQuoted q (bslash :: d :: ds) = skipQuoted q ds := by
              simp [skipQuoted]
            rw [hskip, specScan_cons depth _ bslash (d :: ds) hd,
              specStep_inQ_bslash]
            show specScan depth (ScanMode.inQ q true) (d :: ds) = _
            rw [specScan_cons depth _ d ds hd, specStep_inQ_esc]
            exact hrec
          · by_cases hq : c = q
            · subst hq
              have hskip : skipQuoted c (c :: d :: ds) = d :: ds := by
                simp [skipQuoted, hb]
              rw [hskip, specScan_cons depth _ c (d :: ds) hd,
                specStep_inQ_close depth c hb]
            · have h1 : (d :: ds).length = ds.length + 1 := rfl
              have hrec := ih (d :: ds) (by omega) depth hd
              have hskip : skipQuoted q (c :: d :: ds) = skipQuoted q (d :: ds) := by
                simp [skipQuoted, hb, hq]
              rw [hskip, specScan_cons depth _ c (d :: ds) hd,
                specStep_inQ_other depth q c hb hq]
              exact hrec
  exact fun l => key l.length l le_rfl

/-- The implementation's nested scanning loop computes exactly the
specification machine's scan. -/
theorem scanBlock_eq_specScan :
    ∀ l : List Char, ∀ depth : Nat,
      scanBlock depth l = specScan depth ScanMode.top l := by
  have key : ∀ n (l : List Char), l.length ≤ n → ∀ depth : Nat,
      scanBlock depth l = specScan depth ScanMode.top l := by
    intro n
    induction n with
    | zero =>
      intro l hl depth
      cases l with
      | nil => simp [scanBlock, specScan]
      | cons c cs => simp at hl
    | succ n ih =>
      intro l hl depth
      by_cases hd : depth = 0
      · subst hd
        rw [scanBlock_zero, specScan_zero]
      · cases l with
        | nil => simp [scanBlock, specScan_nil, hd]
        | cons c cs =>
          have h1 : (c :: cs).length = cs.length + 1 := rfl
          rw [specScan_cons depth _ c cs hd]
          by_cases hcq : isQuoteChar c = true
          · have hskip := skipQuoted_length_le c cs
            have hrec := ih (skipQuoted c cs) (by omega) depth
            rw [specStep_top_quote depth c hcq]
            show _ = specScan depth (ScanMode.inQ c false) cs
            rw [quote_skip_spec c cs depth hd, ← hrec]
            simp [scanBlock, hd, hcq]
          · have hcq' : isQuoteChar c = false := by
              revert hcq
              cases isQuoteChar c <;> simp
            by_cases hob : c = '{'
            · subst hob
              have hrec := ih cs (by omega) (depth + 1)
              have hstep : specStep (depth, ScanMode.top) '{' =
                  (depth + 1, ScanMode.top) := by
                simp [specStep, hcq']
              rw [hstep]
              show _ = specScan (depth + 1) ScanMode.top cs
              rw [← hrec]
              simp [scanBlock, hd, hcq']
            · by_cases hcb : c = '}'
              · subst hcb
                have hrec := ih cs (by omega) (depth - 1)
                have hstep : specStep (depth, ScanMode.top) '}' =
                    (depth - 1, ScanMode.top) := by
                  simp [specStep, hcq']
                rw [hstep]
                show _ = specScan (depth - 1) ScanMode.top cs
                rw [← hrec]
                simp [scanBlock, hd, hcq']
              · have hrec := ih cs (by omega) depth
                have hstep : specStep (depth, ScanMode.top) c =
                    (depth, ScanMode.top) := by
                  simp [specStep, hcq', hob, hcb]
                rw [hstep]
                show _ = specScan depth ScanMode.top cs
                rw [← hrec]
                simp [scanBlock, hd, hcq', hob, hcb]
  exact fun l => key l.length l le_rfl

/-- On the quoted region it consumes, the quote-skipping loop drives the
specification machine from quote mode back to top mode without touching the
depth (unless the region is unterminated, in which case nothing remains). -/
theorem skipQuoted_split (q : Char) :
    ∀ l : List Char,
      (∃ qp, l = qp ++ skipQuoted q l ∧
        ∀ d : Nat, List.foldl specStep (d, ScanMode.inQ q false) qp =
          (d, ScanMode.top))
      ∨ skipQuoted q l = [] := by
  have key : ∀ n (l : List Char), l.length ≤ n →
      (∃ qp, l = qp ++ skipQuoted q l ∧
        ∀ d : Nat, List.foldl specStep (d, ScanMode.inQ q false) qp =
          (d, ScanMode.top))
      ∨ skipQuoted q l = [] := by
    intro n
    induction n with
    | zero =>
      intro l hl
      cases l with
      | nil => exact Or.inr rfl
      | cons c cs => simp at hl
    | succ n ih =>
      intro l hl
      cases l with
      | nil => exact Or.inr rfl
      | cons c cs =>
        cases cs with
        | nil => exact Or.inr rfl
        | cons d ds =>
          have hlen : (c :: d :: ds).length = ds.length + 2 := rfl
          by_cases hb : c = bslash
          · subst hb
            have hskip : skipQuoted q (bslash :: d :: ds) = skipQuoted q ds := by
              simp [skipQuoted]
            rcases ih ds (by omega) with ⟨qp, hq1, hq2⟩ | hnil
            · refine Or.inl ⟨bslash :: d :: qp, ?_, ?_⟩
              · rw [hskip]
                simpa using hq1
              · intro d0
                rw [List.foldl_cons, List.foldl_cons, specStep_inQ_bslash,
                  specStep_inQ_esc]
                exact hq2 d0
            · exact Or.inr (hskip.trans hnil)
          · by_cases hq : c = q
            · subst hq
              have hskip : skipQuoted c (c :: d :: ds) = d :: ds := by
                simp [skipQuoted, hb]
              refine Or.inl ⟨[c], ?_, ?_⟩
              · simp [hskip]
              · intro d0
                rw [List.foldl_cons, specStep_inQ_close d0 c hb]
                rfl
            · have h1 : (d :: ds).length = ds.length + 1 := rfl
              have hskip : skipQuoted q (c :: d :: ds) = skipQuoted q (d :: ds) := by
                simp [skipQuoted, hb, hq]
              rcases ih (d :: ds) (by omega) with ⟨qp, hq1, hq2⟩ | hnil
              · refine Or.inl ⟨c :: qp, ?_, ?_⟩
                · rw [hskip]
                  simpa using hq1
                · intro d0
                  rw [List.foldl_cons, specStep_inQ_other d0 q c hb hq]
                  exact hq2 d0
              · exact Or.inr (hskip.trans hnil)
  exact fun l => key l.length l le_rfl

/-- A successful scan splits its input into the span before the matching
closing brace (over which the machine returns to depth 1 in top mode), the
closing brace itself, and the remainder. -/
theorem scanBlock_success_split :
    ∀ l : List Char, ∀ depth : Nat, ∀ r : List Char, depth ≠ 0 →
      scanBlock depth l = some r →
      ∃ pre, l = pre ++ '}' :: r ∧
        List.foldl specStep (depth, ScanMode.top) pre = (1, ScanMode.top) := by
  have key : ∀ n (l : List Char), l.length ≤ n → ∀ depth r, depth ≠ 0 →
      scanBlock depth l = some r →
      ∃ pre, l = pre ++ '}' :: r ∧
        List.foldl specStep (depth, ScanMode.top) pre = (1, ScanMode.top) := by
    intro n
    induction n with
    | zero =>
      intro l hl depth r hd hsc
      cases l with
      | nil => simp [scanBlock, hd] at hsc
      | cons c cs => simp at hl
    | succ n ih =>
      intro l hl depth r hd hsc
      cases l with
      | nil => simp [scanBlock, hd] at hsc
      | cons c cs =>
        have h1 : (c :: cs).length = cs.length + 1 := rfl
        by_cases hcq : isQuoteChar c = true
        · have hsc' : scanBlock depth (skipQuoted c cs) = some r := by
            simpa [scanBlock, hd, hcq] using hsc
          rcases skipQuoted_split c cs with ⟨qp, hq1, hq2⟩ | hnil
          · have hlen := skipQuoted_length_le c cs
            obtain ⟨pre, hs1, hs2⟩ := ih (skipQuoted c cs) (by omega) depth r hd hsc'
            refine ⟨c :: (qp ++ pre), ?_, ?_⟩
            · calc c :: cs = c :: (qp ++ skipQuoted c cs) := by rw [← hq1]
                _ = c :: (qp ++ (pre ++ '}' :: r)) := by rw [hs1]
                _ = (c :: (qp ++ pre)) ++ '}' :: r := by simp
            · rw [List.foldl_cons, specStep_top_quote depth c hcq,
                List.foldl_append, hq2 depth]
              exact hs2
          · rw [hnil] at hsc'
            simp [scanBlock, hd] at hsc'
        · have hcq' : isQuoteChar c = false := by
            revert hcq
            cases isQuoteChar c <;> simp
          by_cases hob : c = '{'
          · subst hob
            have hsc' : scanBlock (depth + 1) cs = some r := by
              simpa [scanBlock, hd, hcq'] using hsc
            obtain ⟨pre, hs1, hs2⟩ := ih cs (by omega) (depth + 1) r (by omega) hsc'
            refine ⟨'{' :: pre, by simp [hs1], ?_⟩
            rw [List.foldl_cons,
              show specStep (depth, ScanMode.top) '{' = (depth + 1, ScanMode.top)
                from by simp [specStep, hcq']]
            exact hs2
          · by_cases hcb : c = '}'
            · subst hcb
              have hsc' : scanBlock (depth - 1) cs = some r := by
                simpa [scanBlock, hd, hcq', hob] using hsc
              by_cases hone : depth - 1 = 0
              · have hd1 : depth = 1 := by omega
                rw [hone, scanBlock_zero] at hsc'
                have hr : r = cs := (Option.some.inj hsc').symm
                refine ⟨[], by simp [hr], ?_⟩
                simp [hd1]
              · obtain ⟨pre, hs1, hs2⟩ := ih cs (by omega) (depth - 1) r hone hsc'
                refine ⟨'}' :: pre, by simp [hs1], ?_⟩
                rw [List.foldl_cons,
                  show specStep (depth, ScanMode.top) '}' = (depth - 1, ScanMode.top)
                    from by simp [specStep, hcq', hob]]
                exact hs2
            · have hsc' : scanBlock depth cs = some r := by
                simpa [scanBlock, hd, hcq', hob, hcb] using hsc
              obtain ⟨pre, hs1, hs2⟩ := ih cs (by omega) depth r hd hsc'
              refine ⟨c :: pre, by simp [hs1], ?_⟩
              rw [List.foldl_cons,
                show specStep (depth, ScanMode.top) c = (depth, ScanMode.top)
                  from by simp [specStep, hcq', hob, hcb]]
              exact hs2
  exact fun l => key l.length l le_rfl

theorem take_append_length (a b : List Char) : (a ++ b).take a.length = a := by
  induction a with
  | nil => simp
  | cons c cs ih => simp [ih]

theorem drop_append_length_succ (a r : List Char) (x : Char) :
    (a ++ x :: r).drop (a.length + 1) = r := by
  induction a with
  | nil => simp
  | cons c cs ih => simp [ih]

theorem drop_add (l : List Char) (a b : Nat) :
    (l.drop a).drop b = l.drop (a + b) := by
  rw [List.drop_drop, Nat.add_comm]

/-- Claim C3: `extractRawBlock` scans with a brace-depth counter in which
braces inside quoted regions do not affect depth and a backslash inside a
quoted region consumes the following character as a pair — formally, it
computes exactly the extractor built on the one-character specification
machine `specStep`.  It fails exactly when input ends before the depth
returns to zero; on success it returns the trimmed text strictly between
the opening brace and its matching closing brace together with the offset
just past that brace, the untrimmed span drives the machine from depth 1
back to depth 1 in top mode (balanced outside quotes), and the span is a
verbatim contiguous slice of the source. -/
theorem claim_C3_theorem (source : List Char) (openIdx : Nat) :
    extractRawBlock source openIdx = specExtract source openIdx
    ∧ (extractRawBlock source openIdx = none ↔
        specScan 1 ScanMode.top (source.drop (openIdx + 1)) = none)
    ∧ ∀ body endIdx, extractRawBlock source openIdx = some (body, endIdx) →
        ∃ pre, source.drop (openIdx + 1) = pre ++ '}' :: source.drop endIdx
          ∧ body = jsTrim pre
          ∧ endIdx = openIdx + 2 + pre.length
          ∧ List.foldl specStep (1, ScanMode.top) pre = (1, ScanMode.top)
          ∧ source = source.take (openIdx + 1) ++ pre ++ '}' :: source.drop endIdx := by
  refine ⟨?_, ?_, ?_⟩
  · simp only [extractRawBlock, specExtract, scanBlock_eq_specScan]
  · simp only [extractRawBlock, scanBlock_eq_specScan]
    cases h : specScan 1 ScanMode.top (source.drop (openIdx + 1)) with
    | none => simp
    | some rest => simp
  · intro body endIdx hex
    cases h : scanBlock 1 (source.drop (openIdx + 1)) with
    | none => simp [extractRawBlock, h] at hex
    | some rest =>
      simp only [extractRawBlock, h, Option.some.injEq, Prod.mk.injEq] at hex
      obtain ⟨hbody, hend⟩ := hex
      obtain ⟨pre, hs1, hs2⟩ :=
        scanBlock_success_split (source.drop (openIdx + 1)) 1 rest (by omega) h
      have hlen : (source.drop (openIdx + 1)).length =
          pre.length + (rest.length + 1) := by
        rw [hs1]; simp
      have hcons : (source.drop (openIdx + 1)).length - rest.length =
          pre.length + 1 := by omega
      have htake : (source.drop (openIdx + 1)).take
          ((source.drop (openIdx + 1)).length - rest.length - 1) = pre := by
        rw [hcons, Nat.add_sub_cancel, hs1, take_append_length]
      have hdrop : source.drop endIdx = rest := by
        rw [← hend, hcons, ← drop_add, hs1, drop_append_length_succ]
      refine ⟨pre, ?_, ?_, ?_, hs2, ?_⟩
      · rw [hdrop]; exact hs1
      · rw [← hbody, htake]
      · omega
      · rw [hdrop]
        calc source
            = source.take (openIdx + 1) ++ source.drop (openIdx + 1) :=
              (List.take_append_drop _ _).symm
          _ = source.take (openIdx + 1) ++ (pre ++ '}' :: rest) := by rw [hs1]
          _ = source.take (openIdx + 1) ++ pre ++ '}' :: rest := by
              simp [List.append_assoc]

/-- Witness for `claim_C3_theorem` on the source `{a}` at offset 0. -/
theorem claim_C3_witness :
    extractRawBlock ['{', 'a', '}'] 0 = some (['a'], 3)
    ∧ ∃ pre, (['{', 'a', '}'] : List Char).drop 1 =
        pre ++ '}' :: (['{', 'a', '}'] : List Char).drop 3
      ∧ (['a'] : List Char) = jsTrim pre
      ∧ 3 = 0 + 2 + pre.length
      ∧ List.foldl specStep (1, ScanMode.top) pre = (1, ScanMode.top)
      ∧ (['{', 'a', '}'] : List Char) =
          (['{', 'a', '}'] : List Char).take 1 ++ pre ++ '}' ::
            (['{', 'a', '}'] : List Char).drop 3 := by
  have h := claim_C3_theorem ['{', 'a', '}'] 0
  have he : extractRawBlock ['{', 'a', '}'] 0 = some (['a'], 3) :=
    h.1.trans (by decide)
  exact ⟨he, h.2.2 ['a'] 3 he⟩

/-- Claim C6: on a source whose requested line contains no `{`, the
function does not fail; it returns the offset of the first `{` at or after
the start of that line — here offset 2, which lies on line 2 — and it
fails only when the requested line is never reached. -/
theorem claim_C6_theorem :
    locateBraceInSource ['x', '\n', '{', '}'] 1 = some 2
    ∧ locateBraceInSource ['x'] 2 = none := by
  decide

/-! ### Validation lowering (`schemaToValidationCode`)

`schemaToValidationCode` emits a straight-line `validate_SchemaName(data)`
function per schema; we embed the semantics of that generated function.
Per field, in declaration order: the missing/optional check (`undefined`
or `null`), then the dispatch on string-like / number / boolean /
passthrough, writing into a fresh `result` object.  Every generated throw
carries status 400 and the generated message text.  JS values are modelled
without arrays (an array fails the top-level plain-object guard exactly
like the other non-objects, and no claim feeds arrays to field checks);
JS `Number` string coercion is modelled for optionally signed decimal
integer literals. -/

/-- Modelled JS values. -/
inductive JsValue
  | vStr (s : String)
  | vNum (n : Int)
  | vBool (b : Bool)
  | vNull
  | vUndef
  | vObj (fields : List (String × JsValue))

/-- A schema field as consumed by the validation code generator
(its JSDoc shape: `{ name, type, optional?, args?: { min?, max?, enum? } }`). -/
structure VField where
  name : String
  ftype : String
  optional : Bool
  argMin : Option Int
  argMax : Option Int
  argEnum : Option (List String)

/-- A schema (`data` block) as consumed by the code generator. -/
structure VSchema where
  name : String
  fields : List VField

/-- The structured error thrown by generated validators:
`Object.assign(new Error(message), { status })`. -/
structure VError where
  message : String
  status : Nat
deriving DecidableEq

/-- `data['key']` (`none` = key absent, i.e. `undefined`). -/
def lookupKey : List (String × JsValue) → String → Option JsValue
  | [], _ => none
  | (k0, v) :: rest, k => if k0 = k then some v else lookupKey rest k

/-- JS object assignment `result['key'] = v`: replace in place, else
append. -/
def setKey : List (String × JsValue) → String → JsValue → List (String × JsValue)
  | [], k, v => [(k, v)]
  | (k0, v0) :: rest, k, v =>
    if k0 = k then (k0, v) :: rest else (k0, v0) :: setKey rest k v

/-- Does `data[key] === undefined || data[key] === null` hold? -/
def missingOrNull : Option JsValue → Bool
  | none => true
  | some JsValue.vUndef => true
  | some JsValue.vNull => true
  | some _ => false

/-- Value of an all-digit run (`none` when empty or non-digit). -/
def digitsValAux : List Char → Nat → Option Nat
  | [], acc => some acc
  | c :: cs, acc =>
    if c.isDigit then digitsValAux cs (acc * 10 + (c.toNat - 48)) else none

/-- Digits of a nonempty decimal literal. -/
def digitsVal : List Char → Option Nat
  | [] => none
  | c :: cs => digitsValAux (c :: cs) 0

/-- JS `Number(string)` restricted to integer literals: whitespace-trimmed,
empty is 0, optionally signed digits; everything else is NaN (`none`). -/
def jsStrToNumber (s : String) : Option Int :=
  match jsTrim s.data with
  | [] => some 0
  | c :: cs =>
    if c = '-' then (digitsVal cs).map (fun n => -(n : Int))
    else if c = '+' then (digitsVal cs).map (fun n => (n : Int))
    else (digitsVal (c :: cs)).map (fun n => (n : Int))

/-- JS `Number(...)` on modelled values (`none` = non-finite). -/
def toNumber : JsValue → Option Int
  | JsValue.vNum n => some n
  | JsValue.vBool b => some (if b then 1 else 0)
  | JsValue.vNull => some 0
  | JsValue.vUndef => none
  | JsValue.vStr s => jsStrToNumber s
  | JsValue.vObj _ => none

/-- JS truthiness, as used by `Boolean(data[key])`. -/
def jsTruthy : JsValue → Bool
  | JsValue.vStr s => if s = "" then false else true
  | JsValue.vNum n => if n = 0 then false else true
  | JsValue.vBool b => b
  | JsValue.vNull => false
  | JsValue.vUndef => false
  | JsValue.vObj _ => true

/-- ASCII lower-casing of one character (JS `toLowerCase` restricted to
the ASCII type names the schema language uses). -/
def charToLower (c : Char) : Char :=
  if 'A' ≤ c ∧ c ≤ 'Z' then Char.ofNat (c.toNat + 32) else c

/-- JS `type.toLowerCase()` on the modelled (ASCII) type names. -/
def jsToLower (s : String) : String := String.mk (s.data.map charToLower)

/-- Does the field take the string-like branch?
`['string','password','date','enum'].includes(type.toLowerCase()) || args?.enum`. -/
def isStringLike (f : VField) : Bool :=
  (["string", "password", "date", "enum"].contains (jsToLower f.ftype))
    || f.argEnum.isSome

/-- `data[key].length < min` (false when no bound). -/
def belowMin (mn : Option Int) (len : Nat) : Bool :=
  match mn with
  | some m => decide ((len : Int) < m)
  | none => false

/-- `data[key].length > max` (false when no bound). -/
def aboveMax (mx : Option Int) (len : Nat) : Bool :=
  match mx with
  | some m => decide ((len : Int) > m)
  | none => false

/-- The generated string-branch checks, in emitted order: min, max, enum. -/
def stringChecks (sn : String) (f : VField) (s : String) : Option VError :=
  if belowMin f.argMin s.length then
    some ⟨sn ++ ": \"" ++ f.name ++ "\" too short", 400⟩
  else if aboveMax f.argMax s.length then
    some ⟨sn ++ ": \"" ++ f.name ++ "\" too long", 400⟩
  else
    match f.argEnum with
    | some es =>
      if es.contains s then none
      else some ⟨sn ++ ": \"" ++ f.name ++ "\" invalid enum", 400⟩
    | none => none

/-- The generated number-branch bound checks, in emitted order. -/
def numChecks (sn : String) (f : VField) (nv : Int) : Option VError :=
  match f.argMin with
  | some m =>
    if nv < m then
      some ⟨sn ++ ": \"" ++ f.name ++ "\" must be >= " ++ toString m, 400⟩
    else
      match f.argMax with
      | some mx =>
        if nv > mx then
          some ⟨sn ++ ": \"" ++ f.name ++ "\" must be <= " ++ toString mx, 400⟩
        else none
      | none => none
  | none =>
    match f.argMax with
    | some mx =>
      if nv > mx then
        some ⟨sn ++ ": \"" ++ f.name ++ "\" must be <= " ++ toString mx, 400⟩
      else none
    | none => none

/-- The straight-line per-field body of the generated validator, one field
after the other in declaration order, threading the fresh `result`. -/
def validateFields (sn : String) (data : List (String × JsValue)) :
    List VField → List (String × JsValue) →
      Except VError (List (String × JsValue))
  | [], result => Except.ok result
  | f :: fs, result =>
    match lookupKey data f.name with
    | none =>
      if f.optional then
        validateFields sn data fs (setKey result f.name JsValue.vNull)
      else
        Except.error ⟨sn ++ ": missing required field \"" ++ f.name ++ "\"", 400⟩
    | some JsValue.vUndef =>
      if f.optional then
        validateFields sn data fs (setKey result f.name JsValue.vNull)
      else
        Except.error ⟨sn ++ ": missing required field \"" ++ f.name ++ "\"", 400⟩
    | some JsValue.vNull =>
      if f.optional then
        validateFields sn data fs (setKey result f.name JsValue.vNull)
      else
        Except.error ⟨sn ++ ": missing required field \"" ++ f.name ++ "\"", 400⟩
    | some w =>
      if isStringLike f then
        match w with
        | JsValue.vStr s =>
          match stringChecks sn f s with
          | some e => Except.error e
          | none =>
            validateFields sn data fs (setKey result f.name (JsValue.vStr s))
        | _ =>
          Except.error ⟨sn ++ ": \"" ++ f.name ++ "\" must be a string", 400⟩
      else if jsToLower f.ftype = "number" then
        match toNumber w with
        | none =>
          Except.error ⟨sn ++ ": \"" ++ f.name ++ "\" must be a number", 400⟩
        | some nv =>
          match numChecks sn f nv with
          | some e => Except.error e
          | none =>
            validateFields sn data fs (setKey result f.name (JsValue.vNum nv))
      else if jsToLower f.ftype = "boolean" then
        validateFields sn data fs (setKey result f.name (JsValue.vBool (jsTruthy w)))
      else
        validateFields sn data fs (setKey result f.name w)

/-- Semantics of the generated `validate_SchemaName(data)` function: the
plain-object guard, then the per-field checks into a fresh result. -/
def validateSchema (schema : VSchema) (d : JsValue) :
    Except VError (List (String × JsValue)) :=
  match d with
  | JsValue.vObj fields => validateFields schema.name fields schema.fields []
  | _ => Except.error ⟨schema.name ++ ": body must be a plain object", 400⟩

/-- The value the validator writes for a field it accepts: `null` for an
absent optional field, otherwise the (possibly coerced) input value.  For
values that satisfy the field's constraints the coercions are identities,
so this is the looked-up value itself. -/
def passValue (data : List (String × JsValue)) (f : VField) : JsValue :=
  match lookupKey data f.name with
  | none => JsValue.vNull
  | some JsValue.vUndef => JsValue.vNull
  | some JsValue.vNull => JsValue.vNull
  | some w => w

/-- Does the supplied value meet the field's type, bounds and enum
constraint (the claim's hypothesis), following the generated dispatch? -/
def satisfiesB (f : VField) (v : JsValue) : Bool :=
  if isStringLike f then
    match v with
    | JsValue.vStr s =>
      !(belowMin f.argMin s.length) && !(aboveMax f.argMax s.length) &&
        (match f.argEnum with
         | some es => es.contains s
         | none => true)
    | _ => false
  else if jsToLower f.ftype = "number" then
    match v with
    | JsValue.vNum n =>
      (match f.argMin with
       | some m => decide (m ≤ n)
       | none => true) &&
      (match f.argMax with
       | some m => decide (n ≤ m)
       | none => true)
    | _ => false
  else if jsToLower f.ftype = "boolean" then
    match v with
    | JsValue.vBool _ => true
    | _ => false
  else
    match v with
    | JsValue.vNull => false
    | JsValue.vUndef => false
    | _ => true

/-- Does this field let the generated validator continue (valid value, or
absent-and-optional)? -/
def fieldOkB (data : List (String × JsValue)) (f : VField) : Bool :=
  match lookupKey data f.name with
  | none => f.optional
  | some JsValue.vUndef => f.optional
  | some JsValue.vNull => f.optional
  | some w => satisfiesB f w

/-- The keys of a result object. -/
def keysOf (m : List (String × JsValue)) : List String := m.map Prod.fst

/-- Key insertion as JS assignment leaves it: keep position if present,
else append. -/
def addKey (ks : List String) (k : String) : List String :=
  if k ∈ ks then ks else ks ++ [k]

/-- First-occurrence deduplication of a key list. -/
def firstDedup (names : List String) : List String :=
  names.foldl addKey []

/-- The last field of the list carrying the given name. -/
def lastField : List VField → String → Option VField
  | [], _ => none
  | f :: fs, k =>
    match lastField fs k with
    | some g => some g
    | none => if f.name = k then some f else none

theorem lookup_setKey (m : List (String × JsValue)) (k : String) (v : JsValue)
    (x : String) :
    lookupKey (setKey m k v) x = if k = x then some v else lookupKey m x := by
  induction m with
  | nil =>
    by_cases h : k = x <;> simp [setKey, lookupKey, h]
  | cons p rest ih =>
    obtain ⟨k0, v0⟩ := p
    by_cases h0 : k0 = k
    · subst h0
      by_cases hx : k0 = x <;> simp [setKey, lookupKey, hx]
    · by_cases hx : k0 = x
      · subst hx
        simp [setKey, lookupKey, h0, Ne.symm h0]
      · simp [setKey, lookupKey, h0, hx, ih]

theorem keys_setKey (m : List (String × JsValue)) (k : String) (v : JsValue) :
    keysOf (setKey m k v) = addKey (keysOf m) k := by
  induction m with
  | nil => simp [setKey, keysOf, addKey]
  | cons p rest ih =>
    obtain ⟨k0, v0⟩ := p
    by_cases h0 : k0 = k
    · subst h0
      simp [setKey, keysOf, addKey]
    · have ih' : List.map Prod.fst (setKey rest k v) =
          addKey (List.map Prod.fst rest) k := ih
      by_cases hm : k ∈ List.map Prod.fst rest <;>
        simp [setKey, keysOf, addKey, h0, Ne.symm h0, hm, ih']

theorem stringChecks_none_of (sn : String) (f : VField) (s : String)
    (h1 : belowMin f.argMin s.length = false)
    (h2 : aboveMax f.argMax s.length = false)
    (h3 : ∀ es, f.argEnum = some es → es.contains s = true) :
    stringChecks sn f s = none := by
  simp only [stringChecks, h1, h2, Bool.false_eq_true, if_false]
  cases henum : f.argEnum with
  | none => rfl
  | some es =>
    have h' : s ∈ es := by simpa using h3 es henum
    simp [h']

theorem numChecks_none_of (sn : String) (f : VField) (n : Int)
    (hmin : ∀ m, f.argMin = some m → m ≤ n)
    (hmax : ∀ m, f.argMax = some m → n ≤ m) :
    numChecks sn f n = none := by
  cases h1 : f.argMin with
  | none =>
    cases h2 : f.argMax with
    | none => simp [numChecks, h1, h2]
    | some mx =>
      have := hmax mx h2
      simp [numChecks, h1, h2, show ¬ n > mx from by omega]
  | some m =>
    have := hmin m h1
    cases h2 : f.argMax with
    | none => simp [numChecks, h1, h2, show ¬ n < m from by omega]
    | some mx =>
      have := hmax mx h2
      simp [numChecks, h1, h2, show ¬ n < m from by omega,
        show ¬ n > mx from by omega]

theorem satisfies_string_parts {f : VField} {s : String}
    (hsl : isStringLike f = true) (h : satisfiesB f (JsValue.vStr s) = true) :
    belowMin f.argMin s.length = false
    ∧ aboveMax f.argMax s.length = false
    ∧ ∀ es, f.argEnum = some es → es.contains s = true := by
  simp only [satisfiesB, if_pos hsl, Bool.and_eq_true, Bool.not_eq_true'] at h
  refine ⟨h.1.1, h.1.2, ?_⟩
  intro es hes
  rw [hes] at h
  exact h.2

theorem satisfies_num_parts {f : VField} {n : Int}
    (hsl : isStringLike f = false) (hnum : jsToLower f.ftype = "number")
    (h : satisfiesB f (JsValue.vNum n) = true) :
    (∀ m, f.argMin = some m → m ≤ n) ∧ (∀ m, f.argMax = some m → n ≤ m) := by
  simp only [satisfiesB, hsl, Bool.false_eq_true, if_false, hnum, if_pos,
    Bool.and_eq_true] at h
  constructor
  · intro m hm
    rw [hm] at h
    simpa using h.1
  · intro m hm
    rw [hm] at h
    simpa using h.2

/-- A field that is `fieldOkB` advances the generated validator by exactly
one `setKey` write of `passValue`. -/
theorem validate_step (sn : String) (data : List (String × JsValue))
    (f : VField) (fs : List VField) (result : List (String × JsValue))
    (hok : fieldOkB data f = true) :
    validateFields sn data (f :: fs) result =
      validateFields sn data fs (setKey result f.name (passValue data f)) := by
  cases hlk : lookupKey data f.name with
  | none =>
    simp only [fieldOkB, hlk] at hok
    simp [validateFields, hlk, hok, passValue]
  | some w =>
    cases w with
    | vUndef =>
      simp only [fieldOkB, hlk] at hok
      simp [validateFields, hlk, hok, passValue]
    | vNull =>
      simp only [fieldOkB, hlk] at hok
      simp [validateFields, hlk, hok, passValue]
    | vStr s =>
      simp only [fieldOkB, hlk] at hok
      by_cases hsl : isStringLike f = true
      · obtain ⟨h1, h2, h3⟩ := satisfies_string_parts hsl hok
        have hsc := stringChecks_none_of sn f s h1 h2 h3
        simp [validateFields, hlk, hsl, hsc, passValue]
      · have hsl' : isStringLike f = false := by
          revert hsl
          cases isStringLike f <;> simp
        by_cases hnum : jsToLower f.ftype = "number"
        · simp [satisfiesB, hsl', hnum] at hok
        · by_cases hbool : jsToLower f.ftype = "boolean"
          · simp [satisfiesB, hsl', hnum, hbool] at hok
          · simp [validateFields, hlk, hsl', hnum, hbool, passValue]
    | vNum n =>
      simp only [fieldOkB, hlk] at hok
      by_cases hsl : isStringLike f = true
      · simp [satisfiesB, hsl] at hok
      · have hsl' : isStringLike f = false := by
          revert hsl
          cases isStringLike f <;> simp
        by_cases hnum : jsToLower f.ftype = "number"
        · obtain ⟨h1, h2⟩ := satisfies_num_parts hsl' hnum hok
          have hnc := numChecks_none_of sn f n h1 h2
          simp [validateFields, hlk, hsl', hnum, toNumber, hnc, passValue]
        · by_cases hbool : jsToLower f.ftype = "boolean"
          · simp [satisfiesB, hsl', hnum, hbool] at hok
          · simp [validateFields, hlk, hsl', hnum, hbool, passValue]
    | vBool b =>
      simp only [fieldOkB, hlk] at hok
      by_cases hsl : isStringLike f = true
      · simp [satisfiesB, hsl] at hok
      · have hsl' : isStringLike f = false := by
          revert hsl
          cases isStringLike f <;> simp
        by_cases hnum : jsToLower f.ftype = "number"
        · simp [satisfiesB, hsl', hnum] at hok
        · by_cases hbool : jsToLower f.ftype = "boolean"
          · simp [validateFields, hlk, hsl', hnum, hbool, jsTruthy, passValue]
          · simp [validateFields, hlk, hsl', hnum, hbool, passValue]
    | vObj o =>
      simp only [fieldOkB, hlk] at hok
      by_cases hsl : isStringLike f = true
      · simp [satisfiesB, hsl] at hok
      · have hsl' : isStringLike f = false := by
          revert hsl
          cases isStringLike f <;> simp
        by_cases hnum : jsToLower f.ftype = "number"
        · simp [satisfiesB, hsl', hnum] at hok
        · by_cases hbool : jsToLower f.ftype = "boolean"
          · simp [satisfiesB, hsl', hnum, hbool] at hok
          · simp [validateFields, hlk, hsl', hnum, hbool, passValue]

/-- Every error the string branch produces carries status 400. -/
theorem stringChecks_status (sn : String) (f : VField) (s : String)
    (e : VError) (h : stringChecks sn f s = some e) : e.status = 400 := by
  simp only [stringChecks] at h
  split at h
  · cases h
    rfl
  · split at h
    · cases h
      rfl
    · split at h
      · split at h
        · cases h
        · cases h
          rfl
      · cases h

/-- Every error the number branch produces carries status 400. -/
theorem numChecks_status (sn : String) (f : VField) (nv : Int)
    (e : VError) (h : numChecks sn f nv = some e) : e.status = 400 := by
  simp only [numChecks] at h
  split at h
  · split at h
    · cases h
      rfl
    · split at h
      · split at h
        · cases h
          rfl
        · cases h
      · cases h
  · split at h
    · split at h
      · cases h
        rfl
      · cases h
    · cases h

/-- Any one field either raises a status-400 error or performs exactly one
write into the result; an absent-or-null field that continues is optional
and writes `null`. -/
theorem validate_cons_cases (sn : String) (data : List (String × JsValue))
    (f : VField) (fs : List VField) (result : List (String × JsValue)) :
    (∃ e, validateFields sn data (f :: fs) result = Except.error e
      ∧ e.status = 400)
    ∨ (∃ x, validateFields sn data (f :: fs) result =
        validateFields sn data fs (setKey result f.name x)
        ∧ (missingOrNull (lookupKey data f.name) = true →
            f.optional = true ∧ x = JsValue.vNull)) := by
  cases hlk : lookupKey data f.name with
  | none =>
    by_cases hopt : f.optional = true
    · exact Or.inr ⟨JsValue.vNull, by simp [validateFields, hlk, hopt],
        fun _ => ⟨hopt, rfl⟩⟩
    · have hopt' : f.optional = false := by
        revert hopt
        cases f.optional <;> simp
      exact Or.inl ⟨⟨sn ++ ": missing required field \"" ++ f.name ++ "\"", 400⟩,
          by simp [validateFields, hlk, hopt'], rfl⟩
  | some w =>
    cases w with
    | vUndef =>
      by_cases hopt : f.optional = true
      · exact Or.inr ⟨JsValue.vNull, by simp [validateFields, hlk, hopt],
          fun _ => ⟨hopt, rfl⟩⟩
      · have hopt' : f.optional = false := by
          revert hopt
          cases f.optional <;> simp
        exact Or.inl ⟨⟨sn ++ ": missing required field \"" ++ f.name ++ "\"", 400⟩,
          by simp [validateFields, hlk, hopt'], rfl⟩
    | vNull =>
      by_cases hopt : f.optional = true
      · exact Or.inr ⟨JsValue.vNull, by simp [validateFields, hlk, hopt],
          fun _ => ⟨hopt, rfl⟩⟩
      · have hopt' : f.optional = false := by
          revert hopt
          cases f.optional <;> simp
        exact Or.inl ⟨⟨sn ++ ": missing required field \"" ++ f.name ++ "\"", 400⟩,
          by simp [validateFields, hlk, hopt'], rfl⟩
    | vStr s =>
      by_cases hsl : isStringLike f = true
      · cases hsc : stringChecks sn f s with
        | some e =>
          have hst : e.status = 400 := stringChecks_status sn f s e hsc
          exact Or.inl ⟨e, by simp [validateFields, hlk, hsl, hsc], hst⟩
        | none =>
          exact Or.inr ⟨JsValue.vStr s, by simp [validateFields, hlk, hsl, hsc],
            by simp [missingOrNull, hlk]⟩
      · have hsl' : isStringLike f = false := by
          revert hsl
          cases isStringLike f <;> simp
        by_cases hnum : jsToLower f.ftype = "number"
        · cases hn : toNumber (JsValue.vStr s) with
          | none =>
            exact Or.inl ⟨⟨sn ++ ": \"" ++ f.name ++ "\" must be a number", 400⟩,
              by simp [validateFields, hlk, hsl', hnum, hn], rfl⟩
          | some nv =>
            cases hnc : numChecks sn f nv with
            | some e =>
              have hst : e.status = 400 := numChecks_status sn f nv e hnc
              exact Or.inl ⟨e,
                by simp [validateFields, hlk, hsl', hnum, hn, hnc], hst⟩
            | none =>
              exact Or.inr ⟨JsValue.vNum nv,
                by simp [validateFields, hlk, hsl', hnum, hn, hnc],
                by simp [missingOrNull, hlk]⟩
        · by_cases hbool : jsToLower f.ftype = "boolean"
          · exact Or.inr ⟨JsValue.vBool (jsTruthy (JsValue.vStr s)),
              by simp [validateFields, hlk, hsl', hnum, hbool],
              by simp [missingOrNull, hlk]⟩
          · exact Or.inr ⟨JsValue.vStr s,
              by simp [validateFields, hlk, hsl', hnum, hbool],
              by simp [missingOrNull, hlk]⟩
    | vNum n =>
      by_cases hsl : isStringLike f = true
      · exact Or.inl ⟨⟨sn ++ ": \"" ++ f.name ++ "\" must be a string", 400⟩,
          by simp [validateFields, hlk, hsl], rfl⟩
      · have hsl' : isStringLike f = false := by
          revert hsl
          cases isStringLike f <;> simp
        by_cases hnum : jsToLower f.ftype = "number"
        · cases hnc : numChecks sn f n with
          | some e =>
            have hst : e.status = 400 := numChecks_status sn f n e hnc
            exact Or.inl ⟨e,
              by simp [validateFields, hlk, hsl', hnum, toNumber, hnc], hst⟩
          | none =>
            exact Or.inr ⟨JsValue.vNum n,
              by simp [validateFields, hlk, hsl', hnum, toNumber, hnc],
              by simp [missingOrNull, hlk]⟩
        · by_cases hbool : jsToLower f.ftype = "boolean"
          · exact Or.inr ⟨JsValue.vBool (jsTruthy (JsValue.vNum n)),
              by simp [validateFields, hlk, hsl', hnum, hbool],
              by simp [missingOrNull, hlk]⟩
          · exact Or.inr ⟨JsValue.vNum n,
              by simp [validateFields, hlk, hsl', hnum, hbool],
              by simp [missingOrNull, hlk]⟩
    | vBool b =>
      by_cases hsl : isStringLike f = true
      · exact Or.inl ⟨⟨sn ++ ": \"" ++ f.name ++ "\" must be a string", 400⟩,
          by simp [validateFields, hlk, hsl], rfl⟩
      · have hsl' : isStringLike f = false := by
          revert hsl
          cases isStringLike f <;> simp
        by_cases hnum : jsToLower f.ftype = "number"
        · cases hnc : numChecks sn f (if b then 1 else 0) with
          | some e =>
            have hst : e.status = 400 :=
              numChecks_status sn f (if b then 1 else 0) e hnc
            exact Or.inl ⟨e,
              by simp [validateFields, hlk, hsl', hnum, toNumber, hnc], hst⟩
          | none =>
            exact Or.inr ⟨JsValue.vNum (if b then 1 else 0),
              by simp [validateFields, hlk, hsl', hnum, toNumber, hnc],
              by simp [missingOrNull, hlk]⟩
        · by_cases hbool : jsToLower f.ftype = "boolean"
          · exact Or.inr ⟨JsValue.vBool (jsTruthy (JsValue.vBool b)),
              by simp [validateFields, hlk, hsl', hnum, hbool],
              by simp [missingOrNull, hlk]⟩
          · exact Or.inr ⟨JsValue.vBool b,
              by simp [validateFields, hlk, hsl', hnum, hbool],
              by simp [missingOrNull, hlk]⟩
    | vObj o =>
      by_cases hsl : isStringLike f = true
      · exact Or.inl ⟨⟨sn ++ ": \"" ++ f.name ++ "\" must be a string", 400⟩,
          by simp [validateFields, hlk, hsl], rfl⟩
      · have hsl' : isStringLike f = false := by
          revert hsl
          cases isStringLike f <;> simp
        by_cases hnum : jsToLower f.ftype = "number"
        · exact Or.inl ⟨⟨sn ++ ": \"" ++ f.name ++ "\" must be a number", 400⟩,
            by simp [validateFields, hlk, hsl', hnum, toNumber], rfl⟩
        · by_cases hbool : jsToLower f.ftype = "boolean"
          · exact Or.inr ⟨JsValue.vBool (jsTruthy (JsValue.vObj o)),
              by simp [validateFields, hlk, hsl', hnum, hbool],
              by simp [missingOrNull, hlk]⟩
          · exact Or.inr ⟨JsValue.vObj o,
              by simp [validateFields, hlk, hsl', hnum, hbool],
              by simp [missingOrNull, hlk]⟩

/-- A record whose every field passes advances field by field, producing
exactly the fold of the per-field writes. -/
theorem validate_run (sn : String) (data : List (String × JsValue)) :
    ∀ (fields : List VField) (result : List (String × JsValue)),
      (∀ f ∈ fields, fieldOkB data f = true) →
      validateFields sn data fields result =
        Except.ok (fields.foldl
          (fun r f => setKey r f.name (passValue data f)) result) := by
  intro fields
  induction fields with
  | nil =>
    intro result _
    simp [validateFields]
  | cons f fs ih =>
    intro result h
    rw [validate_step sn data f fs result (h f (List.mem_cons_self f fs)),
      ih _ (fun g hg => h g (List.mem_cons_of_mem f hg))]
    rfl

theorem lastField_sound :
    ∀ (fields : List VField) (k : String) (g : VField),
      lastField fields k = some g → g.name = k ∧ g ∈ fields := by
  intro fields
  induction fields with
  | nil => intro k g h; cases h
  | cons f fs ih =>
    intro k g h
    simp only [lastField] at h
    cases hlf : lastField fs k with
    | some g0 =>
      rw [hlf] at h
      cases h
      obtain ⟨h1, h2⟩ := ih k g hlf
      exact ⟨h1, List.mem_cons_of_mem f h2⟩
    | none =>
      rw [hlf] at h
      by_cases hk : f.name = k
      · rw [if_pos hk] at h
        cases h
        exact ⟨hk, List.mem_cons_self f fs⟩
      · rw [if_neg hk] at h
        cases h

theorem lastField_mem :
    ∀ (fields : List VField) (f : VField), f ∈ fields →
      ∃ g, lastField fields f.name = some g ∧ g.name = f.name ∧ g ∈ fields := by
  intro fields
  induction fields with
  | nil => intro f h; cases h
  | cons f0 fs ih =>
    intro f hf
    cases hlf : lastField fs f.name with
    | some g =>
      obtain ⟨h1, h2⟩ := lastField_sound fs f.name g hlf
      exact ⟨g, by simp [lastField, hlf], h1, List.mem_cons_of_mem f0 h2⟩
    | none =>
      rcases List.mem_cons.mp hf with rfl | hmem
      · exact ⟨f, by simp [lastField, hlf], rfl, List.mem_cons_self f fs⟩
      · obtain ⟨g, hg, _, _⟩ := ih f hmem
        rw [hlf] at hg
        cases hg

/-- The final value under each key after the fold of per-field writes. -/
theorem lookup_applyAll (data : List (String × JsValue)) :
    ∀ (fields : List VField) (result : List (String × JsValue)) (k : String),
      lookupKey (fields.foldl
        (fun r f => setKey r f.name (passValue data f)) result) k =
      (match lastField fields k with
       | some g => some (passValue data g)
       | none => lookupKey result k) := by
  intro fields
  induction fields with
  | nil =>
    intro result k
    simp [lastField]
  | cons f fs ih =>
    intro result k
    rw [List.foldl_cons, ih]
    cases hlf : lastField fs k with
    | some g => simp [lastField, hlf]
    | none =>
      simp only [lastField, hlf]
      by_cases hk : f.name = k
      · simp [lookup_setKey, hk]
      · simp [lookup_setKey, hk]

/-- Keys of a successful validation: the fold of `addKey` over the field
names, whatever the input record was. -/
theorem validate_keys (sn : String) (data : List (String × JsValue)) :
    ∀ (fields : List VField) (result out : List (String × JsValue)),
      validateFields sn data fields result = Except.ok out →
      keysOf out = fields.foldl (fun ks f => addKey ks f.name) (keysOf result) := by
  intro fields
  induction fields with
  | nil =>
    intro result out h
    simp only [validateFields] at h
    cases h
    rfl
  | cons f fs ih =>
    intro result out h
    rcases validate_cons_cases sn data f fs result with ⟨e, he, _⟩ | ⟨x, hx, _⟩
    · rw [he] at h
      cases h
    · rw [hx] at h
      rw [List.foldl_cons, ← keys_setKey result f.name x]
      exact ih _ out h

/-- A successful validation never passed a missing (or null) required
field. -/
theorem validate_ok_required (sn : String) (data : List (String × JsValue)) :
    ∀ (fields : List VField) (result out : List (String × JsValue)),
      validateFields sn data fields result = Except.ok out →
      ∀ f ∈ fields, missingOrNull (lookupKey data f.name) = true →
        f.optional = true := by
  intro fields
  induction fields with
  | nil => intro result out _ f hf; cases hf
  | cons f0 fs ih =>
    intro result out h f hf hmiss
    rcases validate_cons_cases sn data f0 fs result with ⟨e, he, _⟩ | ⟨x, hx, hm⟩
    · rw [he] at h
      cases h
    · rw [hx] at h
      rcases List.mem_cons.mp hf with rfl | hmem
      · exact (hm hmiss).1
      · exact ih _ out h f hmem hmiss

/-- Every error the generated validator raises carries status 400. -/
theorem validate_error_status (sn : String) (data : List (String × JsValue)) :
    ∀ (fields : List VField) (result : List (String × JsValue)) (e : VError),
      validateFields sn data fields result = Except.error e →
      e.status = 400 := by
  intro fields
  induction fields with
  | nil =>
    intro result e h
    simp [validateFields] at h
  | cons f fs ih =>
    intro result e h
    rcases validate_cons_cases sn data f fs result with ⟨e0, he, hst⟩ | ⟨x, hx, _⟩
    · rw [he] at h
      cases h
      exact hst
    · rw [hx] at h
      exact ih _ e h

/-- A successful validation leaves keys outside the field-name set exactly
as they were in the accumulated result. -/
theorem validate_ok_untouched (sn : String) (data : List (String × JsValue)) :
    ∀ (fields : List VField) (result out : List (String × JsValue)) (k : String),
      validateFields sn data fields result = Except.ok out →
      (∀ f ∈ fields, f.name ≠ k) →
      lookupKey out k = lookupKey result k := by
  intro fields
  induction fields with
  | nil =>
    intro result out k h _
    simp only [validateFields] at h
    cases h
    rfl
  | cons f fs ih =>
    intro result out k h hk
    rcases validate_cons_cases sn data f fs result with ⟨e, he, _⟩ | ⟨x, hx, _⟩
    · rw [he] at h
      cases h
    · rw [hx] at h
      rw [ih _ out k h (fun g hg => hk g (List.mem_cons_of_mem f hg)),
        lookup_setKey, if_neg (hk f (List.mem_cons_self f fs))]

/-- With distinct field names, an absent optional field appears in the
output bound to `null`. -/
theorem validate_ok_optional_null (sn : String) (data : List (String × JsValue)) :
    ∀ (fields : List VField) (result out : List (String × JsValue)),
      validateFields sn data fields result = Except.ok out →
      (fields.map VField.name).Nodup →
      ∀ f ∈ fields, missingOrNull (lookupKey data f.name) = true →
        lookupKey out f.name = some JsValue.vNull := by
  intro fields
  induction fields with
  | nil => intro result out _ _ f hf; cases hf
  | cons f0 fs ih =>
    intro result out h hnd f hf hmiss
    rcases validate_cons_cases sn data f0 fs result with ⟨e, he, _⟩ | ⟨x, hx, hm⟩
    · rw [he] at h
      cases h
    · rw [hx] at h
      rcases List.mem_cons.mp hf with rfl | hmem
      · have hnotin : ∀ g ∈ fs, g.name ≠ f.name := by
          intro g hg
          have := (List.nodup_cons.mp hnd).1
          intro hEq
          exact this (hEq ▸ List.mem_map_of_mem VField.name hg)
        rw [validate_ok_untouched sn data fs _ out f.name h hnotin,
          lookup_setKey, if_pos rfl, (hm hmiss).2]
      · exact ih _ out h (List.nodup_cons.mp hnd).2 f hmem hmiss

/-- A field bound to a satisfying value passes through unchanged. -/
theorem passValue_of_satisfies {data : List (String × JsValue)} {f : VField}
    {w : JsValue} (hlk : lookupKey data f.name = some w)
    (hs : satisfiesB f w = true) : passValue data f = w := by
  cases w with
  | vNull =>
    have : satisfiesB f JsValue.vNull = false := by
      simp only [satisfiesB]
      split
      · rfl
      · split
        · rfl
        · split
          · rfl
          · rfl
    rw [this] at hs
    cases hs
  | vUndef =>
    have : satisfiesB f JsValue.vUndef = false := by
      simp only [satisfiesB]
      split
      · rfl
      · split
        · rfl
        · split
          · rfl
          · rfl
    rw [this] at hs
    cases hs
  | vStr s => simp [passValue, hlk]
  | vNum n => simp [passValue, hlk]
  | vBool b => simp [passValue, hlk]
  | vObj o => simp [passValue, hlk]

/-- A field bound to a satisfying value is `fieldOkB`. -/
theorem fieldOk_of_satisfies {data : List (String × JsValue)} {f : VField}
    {w : JsValue} (hlk : lookupKey data f.name = some w)
    (hs : satisfiesB f w = true) : fieldOkB data f = true := by
  cases w with
  | vNull =>
    have := passValue_of_satisfies hlk hs
    simp only [satisfiesB] at hs
    revert hs
    split
    · simp
    · split
      · simp
      · split
        · simp
        · simp
  | vUndef =>
    simp only [satisfiesB] at hs
    revert hs
    split
    · simp
    · split
      · simp
      · split
        · simp
        · simp
  | vStr s => simp [fieldOkB, hlk, hs]
  | vNum n => simp [fieldOkB, hlk, hs]
  | vBool b => simp [fieldOkB, hlk, hs]
  | vObj o => simp [fieldOkB, hlk, hs]

/-- Running the validator over a prefix of passing fields just accumulates
their writes. -/
theorem validate_append_run (sn : String) (data : List (String × JsValue)) :
    ∀ (pre fs : List VField) (result : List (String × JsValue)),
      (∀ g ∈ pre, fieldOkB data g = true) →
      validateFields sn data (pre ++ fs) result =
        validateFields sn data fs
          (pre.foldl (fun r g => setKey r g.name (passValue data g)) result) := by
  intro pre
  induction pre with
  | nil => intro fs result _; rfl
  | cons g gs ih =>
    intro fs result h
    rw [List.cons_append,
      validate_step sn data g (gs ++ fs) result (h g (List.mem_cons_self g gs)),
      ih fs _ (fun g0 hg0 => h g0 (List.mem_cons_of_mem g hg0))]
    rfl

theorem mem_foldl_addKey :
    ∀ (ns : List String) (acc : List String) (k : String),
      k ∈ ns.foldl addKey acc → k ∈ acc ∨ k ∈ ns := by
  intro ns
  induction ns with
  | nil => intro acc k h; exact Or.inl h
  | cons n ns ih =>
    intro acc k h
    rcases ih (addKey acc n) k h with hacc | hns
    · by_cases hin : n ∈ acc
      · rw [addKey, if_pos hin] at hacc
        exact Or.inl hacc
      · rw [addKey, if_neg hin] at hacc
        rcases List.mem_append.mp hacc with h1 | h1
        · exact Or.inl h1
        · simp only [List.mem_singleton] at h1
          exact Or.inr (h1 ▸ List.mem_cons_self n ns)
    · exact Or.inr (List.mem_cons_of_mem n hns)

theorem foldl_addKey_nodup :
    ∀ (ns : List String) (acc : List String), ns.Nodup →
      (∀ n ∈ ns, n ∉ acc) → ns.foldl addKey acc = acc ++ ns := by
  intro ns
  induction ns with
  | nil => intro acc _ _; simp
  | cons n ns ih =>
    intro acc hnd hdisj
    have hna : n ∉ acc := hdisj n (List.mem_cons_self n ns)
    have hstep : ns.foldl addKey (acc ++ [n]) = (acc ++ [n]) ++ ns := by
      apply ih (acc ++ [n]) (List.nodup_cons.mp hnd).2
      intro m hm hmem
      rcases List.mem_append.mp hmem with h1 | h1
      · exact hdisj m (List.mem_cons_of_mem n hm) h1
      · simp only [List.mem_singleton] at h1
        exact (List.nodup_cons.mp hnd).1 (h1 ▸ hm)
    rw [List.foldl_cons, addKey, if_neg hna, hstep]
    simp

/-- The `User` schema of the spec's worked example:
`User{username:String(min:3,max:50), role:Enum(admin|editor|viewer)}`. -/
def userSchema : VSchema :=
  ⟨"User",
    [⟨"username", "String", false, some 3, some 50, none⟩,
     ⟨"role", "Enum", false, none, none, some ["admin", "editor", "viewer"]⟩]⟩

/-- Claim C1, counterexample: for the `User` schema, the record
`{username:"ab"}` omits the required field `role`, yet the raised
status-400 error is the too-short error for `username` — its message does
not name `role`, against the claim that omitting any required field fails
with an error naming that field. -/
theorem claim_C1_counterexample :
    validateSchema userSchema (JsValue.vObj [("username", JsValue.vStr "ab")]) =
      Except.error ⟨"User: \"username\" too short", 400⟩
    ∧ mentions "User: \"username\" too short" "role" = false :=
  ⟨rfl, by decide⟩

/-- Claim C1 (amended): a record supplying a satisfying value for every
field validates successfully with the result agreeing with the input on
every non-optional field; omitting (or binding to undefined/null) a
required field always yields a status-400 error, whose message is the
missing-field message naming that field whenever every field declared
before it passes; and the three `User` examples behave as stated. -/
theorem claim_C1_theorem (schema : VSchema) (r : List (String × JsValue)) :
    ((∀ f ∈ schema.fields, ∃ w, lookupKey r f.name = some w
        ∧ satisfiesB f w = true) →
      ∃ out, validateSchema schema (JsValue.vObj r) = Except.ok out
        ∧ ∀ f ∈ schema.fields, f.optional = false →
            lookupKey out f.name = lookupKey r f.name)
    ∧ (∀ f ∈ schema.fields, f.optional = false →
        missingOrNull (lookupKey r f.name) = true →
        ∃ e, validateSchema schema (JsValue.vObj r) = Except.error e
          ∧ e.status = 400)
    ∧ (∀ pre f post, schema.fields = pre ++ f :: post →
        f.optional = false →
        missingOrNull (lookupKey r f.name) = true →
        (∀ g ∈ pre, fieldOkB r g = true) →
        validateSchema schema (JsValue.vObj r) = Except.error
          ⟨schema.name ++ ": missing required field \"" ++ f.name ++ "\"", 400⟩
        ∧ mentions
            (schema.name ++ ": missing required field \"" ++ f.name ++ "\"")
            f.name = true)
    ∧ validateSchema userSchema
        (JsValue.vObj [("username", JsValue.vStr "ab"), ("role", JsValue.vStr "admin")]) =
      Except.error ⟨"User: \"username\" too short", 400⟩
    ∧ validateSchema userSchema
        (JsValue.vObj [("username", JsValue.vStr "abc"), ("role", JsValue.vStr "owner")]) =
      Except.error ⟨"User: \"role\" invalid enum", 400⟩
    ∧ validateSchema userSchema
        (JsValue.vObj [("username", JsValue.vStr "abc"), ("role", JsValue.vStr "admin")]) =
      Except.ok [("username", JsValue.vStr "abc"), ("role", JsValue.vStr "admin")] := by
  refine ⟨?_, ?_, ?_, rfl, rfl, rfl⟩
  · intro hall
    have hok : ∀ f ∈ schema.fields, fieldOkB r f = true := by
      intro f hf
      obtain ⟨w, hw, hs⟩ := hall f hf
      exact fieldOk_of_satisfies hw hs
    refine ⟨_, validate_run schema.name r schema.fields [] hok, ?_⟩
    intro f hf _
    obtain ⟨g, hg, hgname, hgmem⟩ := lastField_mem schema.fields f hf
    rw [lookup_applyAll r schema.fields [] f.name, hg]
    obtain ⟨w, hw, hs⟩ := hall g hgmem
    show some (passValue r g) = _
    rw [passValue_of_satisfies hw hs, ← hgname, hw]
  · intro f hf hreq hmiss
    cases hres : validateSchema schema (JsValue.vObj r) with
    | ok out =>
      exfalso
      simp only [validateSchema] at hres
      have := validate_ok_required schema.name r schema.fields [] out hres f hf hmiss
      rw [hreq] at this
      cases this
    | error e =>
      refine ⟨e, rfl, ?_⟩
      simp only [validateSchema] at hres
      exact validate_error_status schema.name r schema.fields [] e hres
  · intro pre f post hsplit hreq hmiss hpre
    constructor
    · show validateSchema schema (JsValue.vObj r) = _
      simp only [validateSchema, hsplit]
      rw [validate_append_run schema.name r pre (f :: post) [] hpre]
      cases hlk : lookupKey r f.name with
      | none => simp [validateFields, hlk, hreq]
      | some w =>
        cases w with
        | vUndef => simp [validateFields, hlk, hreq]
        | vNull => simp [validateFields, hlk, hreq]
        | vStr s => simp [missingOrNull, hlk] at hmiss
        | vNum n => simp [missingOrNull, hlk] at hmiss
        | vBool b => simp [missingOrNull, hlk] at hmiss
        | vObj o => simp [missingOrNull, hlk] at hmiss
    · show mentions _ _ = true
      unfold mentions
      have : ((schema.name ++ ": missing required field \"" ++ f.name ++ "\"")).data =
          (schema.name.data ++ (": missing required field \"").data)
            ++ (f.name.data ++ ("\"").data) := by
        simp [String.data_append]
      rw [this]
      exact containsSeq_mid f.name.data _ _

/-- Witness for `claim_C1_theorem`: the valid `User` record. -/
theorem claim_C1_witness :
    (∀ f ∈ userSchema.fields, ∃ w,
        lookupKey [("username", JsValue.vStr "abc"), ("role", JsValue.vStr "admin")]
          f.name = some w ∧ satisfiesB f w = true)
    ∧ ∃ out, validateSchema userSchema
        (JsValue.vObj [("username", JsValue.vStr "abc"), ("role", JsValue.vStr "admin")]) =
          Except.ok out
        ∧ ∀ f ∈ userSchema.fields, f.optional = false →
            lookupKey out f.name =
              lookupKey [("username", JsValue.vStr "abc"), ("role", JsValue.vStr "admin")]
                f.name := by
  have hall : ∀ f ∈ userSchema.fields, ∃ w,
      lookupKey [("username", JsValue.vStr "abc"), ("role", JsValue.vStr "admin")]
        f.name = some w ∧ satisfiesB f w = true := by
    intro f hf
    cases hf with
    | head => exact ⟨JsValue.vStr "abc", rfl, by decide⟩
    | tail _ hf2 =>
      cases hf2 with
      | head => exact ⟨JsValue.vStr "admin", rfl, by decide⟩
      | tail _ h => cases h
  exact ⟨hall, (claim_C1_theorem userSchema _).1 hall⟩

/-- A schema with a repeated field name, parseable from
`data D { a: String, a: String }`. -/
def dupSchema : VSchema :=
  ⟨"D", [⟨"a", "String", false, none, none, none⟩,
         ⟨"a", "String", false, none, none, none⟩]⟩

/-- Claim C9, counterexample: with a repeated field name the successful
result's key list is the single key `a`, not the two-element field-name
list in declaration order. -/
theorem claim_C9_counterexample :
    validateSchema dupSchema (JsValue.vObj [("a", JsValue.vStr "x")]) =
      Except.ok [("a", JsValue.vStr "x")]
    ∧ keysOf [("a", JsValue.vStr "x")] ≠ dupSchema.fields.map VField.name :=
  ⟨rfl, by decide⟩

/-- Claim C9 (amended): on success the returned record is freshly built —
its keys are exactly the field names deduplicated to first occurrence in
declaration order (so exactly the field names whenever they are distinct),
extra input keys are dropped, and (for distinct names) an absent optional
field appears bound to null.  The embedding is a pure function of the
input, which the generated code never writes to. -/
theorem claim_C9_theorem (schema : VSchema) (r out : List (String × JsValue))
    (hok : validateSchema schema (JsValue.vObj r) = Except.ok out) :
    keysOf out = firstDedup (schema.fields.map VField.name)
    ∧ (∀ k ∈ keysOf out, k ∈ schema.fields.map VField.name)
    ∧ ((schema.fields.map VField.name).Nodup →
        keysOf out = schema.fields.map VField.name
        ∧ ∀ f ∈ schema.fields, f.optional = true →
            missingOrNull (lookupKey r f.name) = true →
            lookupKey out f.name = some JsValue.vNull) := by
  simp only [validateSchema] at hok
  have hkeys := validate_keys schema.name r schema.fields [] out hok
  have hfold : schema.fields.foldl (fun ks f => addKey ks f.name) (keysOf []) =
      firstDedup (schema.fields.map VField.name) := by
    rw [firstDedup, List.foldl_map]
    rfl
  refine ⟨hkeys.trans hfold, ?_, ?_⟩
  · intro k hk
    rw [hkeys.trans hfold] at hk
    rcases mem_foldl_addKey (schema.fields.map VField.name) [] k hk with h | h
    · cases h
    · exact h
  · intro hnd
    constructor
    · rw [hkeys.trans hfold, firstDedup,
        foldl_addKey_nodup (schema.fields.map VField.name) [] hnd
          (by intro n _ hn; cases hn)]
      rfl
    · exact fun f hf _ hmiss =>
        validate_ok_optional_null schema.name r schema.fields [] out hok hnd f hf hmiss

/-- Witness for `claim_C9_theorem`: a `User` record carrying an extra key,
which is dropped from the result. -/
theorem claim_C9_witness :
    validateSchema userSchema
      (JsValue.vObj [("username", JsValue.vStr "abc"),
        ("role", JsValue.vStr "admin"), ("extra", JsValue.vNum 1)]) =
      Except.ok [("username", JsValue.vStr "abc"), ("role", JsValue.vStr "admin")]
    ∧ keysOf [("username", JsValue.vStr "abc"), ("role", JsValue.vStr "admin")] =
        firstDedup (userSchema.fields.map VField.name)
    ∧ ∀ k ∈ keysOf [("username", JsValue.vStr "abc"), ("role", JsValue.vStr "admin")],
        k ∈ userSchema.fields.map VField.name := by
  have hok : validateSchema userSchema
      (JsValue.vObj [("username", JsValue.vStr "abc"),
        ("role", JsValue.vStr "admin"), ("extra", JsValue.vNum 1)]) =
      Except.ok [("username", JsValue.vStr "abc"), ("role", JsValue.vStr "admin")] := rfl
  have h := claim_C9_theorem userSchema _ _ hok
  exact ⟨hok, h.1, h.2.1⟩

/-! ### Tokenizer (`lexer.js`, the structure-only lexer paired with the
do-body source extraction)

The lexer is a single loop; each iteration consumes at least one source
character, so running the embedding with fuel `length + 1` never exhausts
it.  Token positions record the line/column reached after consuming the
token's characters, which is how the original's `add` records them. -/

/-- Token kinds of the `TT` table (without `NUMBER`: this lexer emits
numeric literals as `IDENT`). -/
inductive TokType
  | KEYWORD
  | IDENT
  | LPAREN
  | RPAREN
  | LBRACE
  | RBRACE
  | LBRACKET
  | RBRACKET
  | STRING
  | FAT_ARROW
  | COMMA
  | COLON
  | PIPE
  | QUESTION
  | HTTP_METHOD
  | EOF
deriving DecidableEq

/-- A token `{ type, value, line, column }`; `value` is `none` for the
end-of-input token (`null` in the original). -/
structure Token where
  ttype : TokType
  value : Option String
  line : Nat
  column : Nat
deriving DecidableEq

/-- Line/column cursor. -/
structure Pos where
  line : Nat
  col : Nat

/-- `advance()`'s position update for one character. -/
def stepPos (p : Pos) (c : Char) : Pos :=
  if c = '\n' then ⟨p.line + 1, 1⟩ else ⟨p.line, p.col + 1⟩

/-- Position update over a run of consumed characters. -/
def advPos (p : Pos) (cs : List Char) : Pos := cs.foldl stepPos p

/-- The reserved keywords. -/
def keywords : List String := ["data", "do", "route", "migration", "import"]

/-- The HTTP verbs. -/
def httpMethods : List String := ["GET", "POST", "PUT", "DELETE", "PATCH"]

/-- Word classification: keyword, verb, or plain identifier. -/
def classify (w : String) : TokType :=
  if keywords.contains w then TokType.KEYWORD
  else if httpMethods.contains w then TokType.HTTP_METHOD
  else TokType.IDENT

/-- `/[a-zA-Z_]/`. -/
def isWordStart (c : Char) : Bool :=
  ('a' ≤ c && c ≤ 'z') || ('A' ≤ c && c ≤ 'Z') || c = '_'

/-- `/[\w]/`. -/
def isWordChar (c : Char) : Bool := isWordStart c || ('0' ≤ c && c ≤ '9')

/-- `/\d/`. -/
def isDigitCh (c : Char) : Bool := '0' ≤ c && c ≤ '9'

/-- `/[\d.]/`. -/
def isNumChar (c : Char) : Bool := isDigitCh c || c = '.'

/-- The single-character token table. -/
def singleTok (c : Char) : Option TokType :=
  if c = '{' then some TokType.LBRACE
  else if c = '}' then some TokType.RBRACE
  else if c = '(' then some TokType.LPAREN
  else if c = ')' then some TokType.RPAREN
  else if c = '[' then some TokType.LBRACKET
  else if c = ']' then some TokType.RBRACKET
  else if c = ',' then some TokType.COMMA
  else if c = ':' then some TokType.COLON
  else if c = '|' then some TokType.PIPE
  else if c = '?' then some TokType.QUESTION
  else none

/-- The characters JS appends for `s += undefined`. -/
def undefinedChars : List Char := ['u', 'n', 'd', 'e', 'f', 'i', 'n', 'e', 'd']

/-- Result of scanning a double-quoted string literal body. -/
structure StrScan where
  text : List Char
  consumed : List Char
  rest : List Char
  extraCols : Nat

/-- The string-literal loop, applied to the characters after the opening
quote: stops at the closing quote (consumed, not part of the text); a
backslash consumes the following character, keeping it verbatim; a
backslash at end of input makes `s += advance()` append the text
`undefined` (JS coercion of the out-of-range read) and bumps the column
once more. -/
def lexStr : List Char → StrScan
  | [] => ⟨[], [], [], 0⟩
  | [c] =>
    if c = '"' then ⟨[], [c], [], 0⟩
    else if c = bslash then ⟨undefinedChars, [c], [], 1⟩
    else ⟨[c], [c], [], 0⟩
  | c :: d :: ds =>
    if c = '"' then ⟨[], [c], d :: ds, 0⟩
    else if c = bslash then
      let r := lexStr ds
      ⟨d :: r.text, c :: d :: r.consumed, r.rest, r.extraCols⟩
    else
      let r := lexStr (d :: ds)
      ⟨c :: r.text, c :: r.consumed, r.rest, r.extraCols⟩

/-- Split at the first `*/` of a block comment body: the consumed run and
the remainder beginning at `*/` (empty when unterminated). -/
def blockSplit : List Char → List Char × List Char
  | [] => ([], [])
  | c :: cs =>
    if c = '*' ∧ cs.head? = some '/' then ([], c :: cs)
    else
      let r := blockSplit cs
      (c :: r.1, r.2)

/-- The lexer loop.  Branches in the original's order: whitespace, `//`
comment, `/* */` comment, `=>`, single-character tokens, string literal,
word, numeric literal, silently skipped character.  The end-of-input token
is always appended. -/
def lexAux : Nat → List Char → Pos → List Token
  | 0, _, p => [⟨TokType.EOF, none, p.line, p.col⟩]
  | _ + 1, [], p => [⟨TokType.EOF, none, p.line, p.col⟩]
  | fuel + 1, c :: cs, p =>
    if isJsWs c then lexAux fuel cs (stepPos p c)
    else if c = '/' ∧ cs.head? = some '/' then
      lexAux fuel ((c :: cs).dropWhile (fun x => x ≠ '\n'))
        (advPos p ((c :: cs).takeWhile (fun x => x ≠ '\n')))
    else if c = '/' ∧ cs.head? = some '*' then
      match cs with
      | _ :: cs2 =>
        let r := blockSplit cs2
        match r.2 with
        | _ :: _ :: rest2 =>
          lexAux fuel rest2 (advPos p (c :: '*' :: (r.1 ++ ['*', '/'])))
        | _ =>
          let p2 := advPos p (c :: '*' :: r.1)
          lexAux fuel [] ⟨p2.line, p2.col + 2⟩
      | [] => lexAux fuel [] p
    else if c = '=' ∧ cs.head? = some '>' then
      match cs with
      | _ :: cs2 =>
        let p2 := advPos p [c, '>']
        ⟨TokType.FAT_ARROW, some "=>", p2.line, p2.col⟩ :: lexAux fuel cs2 p2
      | [] => lexAux fuel [] p
    else
      match singleTok c with
      | some tt =>
        let p2 := stepPos p c
        ⟨tt, some (String.mk [c]), p2.line, p2.col⟩ :: lexAux fuel cs p2
      | none =>
        if c = '"' then
          let r := lexStr cs
          let pc := advPos p (c :: r.consumed)
          let p2 : Pos := ⟨pc.line, pc.col + r.extraCols⟩
          ⟨TokType.STRING, some (String.mk r.text), p2.line, p2.col⟩ ::
            lexAux fuel r.rest p2
        else if isWordStart c then
          let word := (c :: cs).takeWhile isWordChar
          let rest := (c :: cs).dropWhile isWordChar
          let p2 := advPos p word
          ⟨classify (String.mk word), some (String.mk word), p2.line, p2.col⟩ ::
            lexAux fuel rest p2
        else if isDigitCh c then
          let num := (c :: cs).takeWhile isNumChar
          let rest := (c :: cs).dropWhile isNumChar
          let p2 := advPos p num
          ⟨TokType.IDENT, some (String.mk num), p2.line, p2.col⟩ ::
            lexAux fuel rest p2
        else lexAux fuel cs (stepPos p c)

/-- `lex(source)`: run the loop from line 1, column 1 with enough fuel. -/
def lex (l : List Char) : List Token := lexAux (l.length + 1) l ⟨1, 1⟩

/-- The position-free view of a token: kind and value. -/
def tokKV (t : Token) : TokType × Option String := (t.ttype, t.value)

/-- The position-free view of a token list. -/
def lexKV (ts : List Token) : List (TokType × Option String) := ts.map tokKV

theorem lexKV_cons (t : Token) (ts : List Token) :
    lexKV (t :: ts) = tokKV t :: lexKV ts := rfl

theorem lexStr_rest_length : ∀ l : List Char, (lexStr l).rest.length ≤ l.length := by
  have key : ∀ n (l : List Char), l.length ≤ n →
      (lexStr l).rest.length ≤ l.length := by
    intro n
    induction n with
    | zero =>
      intro l hl
      cases l with
      | nil => simp [lexStr]
      | cons c cs => simp at hl
    | succ n ih =>
      intro l hl
      cases l with
      | nil => simp [lexStr]
      | cons c cs =>
        cases cs with
        | nil =>
          by_cases h1 : c = '"'
          · simp [lexStr, h1]
          · by_cases h2 : c = bslash
            · subst h2
              have hne : ¬ (bslash = '"') := by decide
              simp [lexStr, hne]
            · simp [lexStr, h1, h2]
        | cons d ds =>
          have hlen : (c :: d :: ds).length = ds.length + 2 := rfl
          by_cases h1 : c = '"'
          · simp [lexStr, h1]
          · by_cases h2 : c = bslash
            · have := ih ds (by omega)
              simp only [lexStr, if_neg h1, if_pos h2]
              have h3 : (d :: ds).length = ds.length + 1 := rfl
              omega
            · have h3 : (d :: ds).length = ds.length + 1 := rfl
              have := ih (d :: ds) (by omega)
              simp only [lexStr, if_neg h1, if_neg h2]
              omega
  exact fun l => key l.length l le_rfl

theorem blockSplit_snd_length : ∀ l : List Char, (blockSplit l).2.length ≤ l.length := by
  intro l
  induction l with
  | nil => simp [blockSplit]
  | cons c cs ih =>
    by_cases h : c = '*' ∧ cs.head? = some '/'
    · simp [blockSplit, h]
    · simp only [blockSplit, if_neg h]
      have h1 : (c :: cs).length = cs.length + 1 := rfl
      omega

/-- The token list always ends with the end-of-input token. -/
theorem lexAux_ends_eof : ∀ (fuel : Nat) (l : List Char) (p : Pos),
    ∃ ts ln cn, lexAux fuel l p = ts ++ [⟨TokType.EOF, none, ln, cn⟩] := by
  intro fuel
  induction fuel with
  | zero => intro l p; exact ⟨[], p.line, p.col, rfl⟩
  | succ fuel ih =>
    intro l p
    have hcons : ∀ (t : Token) (l0 : List Char) (p0 : Pos),
        ∃ ts ln cn, t :: lexAux fuel l0 p0 =
          ts ++ [⟨TokType.EOF, none, ln, cn⟩] := by
      intro t l0 p0
      obtain ⟨ts, ln, cn, h⟩ := ih l0 p0
      exact ⟨t :: ts, ln, cn, by rw [h]; rfl⟩
    cases l with
    | nil => exact ⟨[], p.line, p.col, rfl⟩
    | cons c cs =>
      by_cases h1 : isJsWs c = true
      · simp only [lexAux, if_pos h1]
        exact ih cs (stepPos p c)
      · simp only [lexAux, if_neg h1]
        by_cases h2 : c = '/' ∧ cs.head? = some '/'
        · simp only [if_pos h2]
          exact ih _ _
        · simp only [if_neg h2]
          by_cases h3 : c = '/' ∧ cs.head? = some '*'
          · simp only [if_pos h3]
            cases cs with
            | nil => simp at h3
            | cons x cs2 =>
              cases hbs : (blockSplit cs2).2 with
              | nil => simp only [hbs]; exact ih _ _
              | cons a bs =>
                cases bs with
                | nil => simp only [hbs]; exact ih _ _
                | cons b rest2 => simp only [hbs]; exact ih _ _
          · simp only [if_neg h3]
            by_cases h4 : c = '=' ∧ cs.head? = some '>'
            · simp only [if_pos h4]
              cases cs with
              | nil => simp at h4
              | cons x cs2 => exact hcons _ _ _
            · simp only [if_neg h4]
              cases hst : singleTok c with
              | some tt => simp only [hst]; exact hcons _ _ _
              | none =>
                simp only [hst]
                by_cases h5 : c = '"'
                · simp only [if_pos h5]
                  exact hcons _ _ _
                · simp only [if_neg h5]
                  by_cases h6 : isWordStart c = true
                  · simp only [if_pos h6]
                    exact hcons _ _ _
                  · simp only [if_neg h6]
                    by_cases h7 : isDigitCh c = true
                    · simp only [if_pos h7]
                      exact hcons _ _ _
                    · simp only [if_neg h7]
                      exact ih cs (stepPos p c)

/-- The kind/value content of the token stream does not depend on the
starting position nor on the exact (sufficient) fuel. -/
theorem lexKV_inv : ∀ (n : Nat) (l : List Char), l.length ≤ n →
    ∀ (f g : Nat) (p q : Pos), l.length < f → l.length < g →
    lexKV (lexAux f l p) = lexKV (lexAux g l q) := by
  intro n
  induction n with
  | zero =>
    intro l hl f g p q hf hg
    cases l with
    | nil =>
      obtain ⟨f', rfl⟩ : ∃ f', f = f' + 1 := ⟨f - 1, by omega⟩
      obtain ⟨g', rfl⟩ : ∃ g', g = g' + 1 := ⟨g - 1, by omega⟩
      rfl
    | cons c cs => simp at hl
  | succ n ih =>
    intro l hl f g p q hf hg
    cases l with
    | nil =>
      obtain ⟨f', rfl⟩ : ∃ f', f = f' + 1 := ⟨f - 1, by omega⟩
      obtain ⟨g', rfl⟩ : ∃ g', g = g' + 1 := ⟨g - 1, by omega⟩
      rfl
    | cons c cs =>
      obtain ⟨f', rfl⟩ : ∃ f', f = f' + 1 := ⟨f - 1, by omega⟩
      obtain ⟨g', rfl⟩ : ∃ g', g = g' + 1 := ⟨g - 1, by omega⟩
      have hlen : (c :: cs).length = cs.length + 1 := rfl
      by_cases h1 : isJsWs c = true
      · simp only [lexAux, if_pos h1]
        exact ih cs (by omega) f' g' _ _ (by omega) (by omega)
      · simp only [lexAux, if_neg h1]
        by_cases h2 : c = '/' ∧ cs.head? = some '/'
        · simp only [if_pos h2]
          have hcne : (fun x => x ≠ '\n') c = true := by
            rw [h2.1]
            decide
          have hdw : ((c :: cs).dropWhile (fun x => x ≠ '\n')).length ≤ cs.length := by
            rw [List.dropWhile_cons, if_pos (by simpa using hcne)]
            exact (List.dropWhile_suffix _).length_le
          exact ih _ (by omega) f' g' _ _ (by omega) (by omega)
        · simp only [if_neg h2]
          by_cases h3 : c = '/' ∧ cs.head? = some '*'
          · simp only [if_pos h3]
            cases cs with
            | nil => simp at h3
            | cons x cs2 =>
              have hbl := blockSplit_snd_length cs2
              have hlen2 : (x :: cs2).length = cs2.length + 1 := rfl
              have hz : ([] : List Char).length = 0 := rfl
              cases hbs : (blockSplit cs2).2 with
              | nil =>
                simp only [hbs]
                exact ih [] (by omega) f' g' _ _ (by omega) (by omega)
              | cons a bs =>
                cases bs with
                | nil =>
                  simp only [hbs]
                  exact ih [] (by omega) f' g' _ _ (by omega) (by omega)
                | cons b rest2 =>
                  simp only [hbs]
                  have : (a :: b :: rest2).length = rest2.length + 2 := rfl
                  rw [hbs] at hbl
                  exact ih rest2 (by omega) f' g' _ _ (by omega) (by omega)
          · simp only [if_neg h3]
            by_cases h4 : c = '=' ∧ cs.head? = some '>'
            · simp only [if_pos h4]
              cases cs with
              | nil => simp at h4
              | cons x cs2 =>
                have hlen2 : (x :: cs2).length = cs2.length + 1 := rfl
                rw [lexKV_cons, lexKV_cons]
                exact congrArg₂ (fun a b => a :: b) rfl
                  (ih cs2 (by omega) f' g' _ _ (by omega) (by omega))
            · simp only [if_neg h4]
              cases hst : singleTok c with
              | some tt =>
                simp only [hst]
                rw [lexKV_cons, lexKV_cons]
                exact congrArg₂ (fun a b => a :: b) rfl
                  (ih cs (by omega) f' g' _ _ (by omega) (by omega))
              | none =>
                simp only [hst]
                by_cases h5 : c = '"'
                · simp only [if_pos h5]
                  have hsl := lexStr_rest_length cs
                  rw [lexKV_cons, lexKV_cons]
                  exact congrArg₂ (fun a b => a :: b) rfl
                    (ih (lexStr cs).rest (by omega) f' g' _ _ (by omega) (by omega))
                · simp only [if_neg h5]
                  by_cases h6 : isWordStart c = true
                  · simp only [if_pos h6]
                    have hwc : isWordChar c = true := by
                      simp [isWordChar, h6]
                    have hdw : ((c :: cs).dropWhile isWordChar).length ≤ cs.length := by
                      rw [List.dropWhile_cons, if_pos hwc]
                      exact (List.dropWhile_suffix _).length_le
                    rw [lexKV_cons, lexKV_cons]
                    exact congrArg₂ (fun a b => a :: b) rfl
                      (ih _ (by omega) f' g' _ _ (by omega) (by omega))
                  · simp only [if_neg h6]
                    by_cases h7 : isDigitCh c = true
                    · simp only [if_pos h7]
                      have hwc : isNumChar c = true := by
                        simp [isNumChar, h7]
                      have hdw : ((c :: cs).dropWhile isNumChar).length ≤ cs.length := by
                        rw [List.dropWhile_cons, if_pos hwc]
                        exact (List.dropWhile_suffix _).length_le
                      rw [lexKV_cons, lexKV_cons]
                      exact congrArg₂ (fun a b => a :: b) rfl
                        (ih _ (by omega) f' g' _ _ (by omega) (by omega))
                    · simp only [if_neg h7]
                      exact ih cs (by omega) f' g' _ _ (by omega) (by omega)

theorem dropWhile_append_all {p : Char → Bool} :
    ∀ (xs rest : List Char), (∀ x ∈ xs, p x = true) →
      (xs ++ rest).dropWhile p = rest.dropWhile p := by
  intro xs
  induction xs with
  | nil => intro rest _; rfl
  | cons x xs ih =>
    intro rest h
    rw [List.cons_append, List.dropWhile_cons,
      if_pos (by simpa using h x (List.mem_cons_self x xs)),
      ih rest (fun y hy => h y (List.mem_cons_of_mem x hy))]

theorem blockSplit_append :
    ∀ (xs rest : List Char), containsSeq ['*', '/'] xs = false →
      blockSplit (xs ++ '*' :: '/' :: rest) = (xs, '*' :: '/' :: rest) := by
  intro xs
  induction xs with
  | nil =>
    intro rest _
    simp [blockSplit]
  | cons x xs ih =>
    intro rest h
    simp only [containsSeq, Bool.or_eq_false_iff] at h
    by_cases hc : x = '*' ∧ ((xs ++ '*' :: '/' :: rest).head? = some '/')
    · exfalso
      cases xs with
      | nil => simp at hc
      | cons y ys =>
        have hy : y = '/' := by simpa using hc.2
        rw [hc.1, hy] at h
        simp [List.isPrefixOf] at h
    · rw [List.cons_append]
      simp only [blockSplit, if_neg hc]
      rw [ih rest h.2]

theorem blockSplit_none :
    ∀ xs : List Char, containsSeq ['*', '/'] xs = false →
      blockSplit xs = (xs, []) := by
  intro xs
  induction xs with
  | nil => intro _; rfl
  | cons x xs ih =>
    intro h
    simp only [containsSeq, Bool.or_eq_false_iff] at h
    by_cases hc : x = '*' ∧ (xs.head? = some '/')
    · exfalso
      cases xs with
      | nil => simp at hc
      | cons y ys =>
        have hy : y = '/' := by simpa using hc.2
        rw [hc.1, hy] at h
        simp [List.isPrefixOf] at h
    · simp only [blockSplit, if_neg hc]
      rw [ih h.2]

/-- Spec-side description of an unterminated double-quoted literal: no
closing quote is reached, with each backslash consuming the following
character. -/
def specUnterminated : List Char → Bool
  | [] => true
  | [c] => !(c = '"')
  | c :: d :: ds =>
    if c = '"' then false
    else if c = bslash then specUnterminated ds
    else specUnterminated (d :: ds)

/-- Spec-side token text of a string literal scanned to end of input:
everything after the opening quote with each backslash-pair contributing
its second character, and the literal characters `undefined` when the
input ends on an unpaired backslash. -/
def specStrText : List Char → List Char
  | [] => []
  | [c] => if c = '"' then [] else if c = bslash then undefinedChars else [c]
  | c :: d :: ds =>
    if c = '"' then []
    else if c = bslash then d :: specStrText ds
    else c :: specStrText (d :: ds)

/-- On unterminated input the string loop consumes everything and produces
the spec-side text. -/
theorem lexStr_spec : ∀ xs : List Char, specUnterminated xs = true →
    (lexStr xs).rest = [] ∧ (lexStr xs).text = specStrText xs := by
  have key : ∀ n (xs : List Char), xs.length ≤ n → specUnterminated xs = true →
      (lexStr xs).rest = [] ∧ (lexStr xs).text = specStrText xs := by
    intro n
    induction n with
    | zero =>
      intro xs hl _
      cases xs with
      | nil => exact ⟨rfl, rfl⟩
      | cons c cs => simp at hl
    | succ n ih =>
      intro xs hl hu
      cases xs with
      | nil => exact ⟨rfl, rfl⟩
      | cons c cs =>
        cases cs with
        | nil =>
          by_cases h1 : c = '"'
          · rw [h1] at hu
            simp [specUnterminated] at hu
          · by_cases h2 : c = bslash <;>
              simp [lexStr, specStrText, h1, h2, bslash_ne_dquote]
        | cons d ds =>
          have hlen : (c :: d :: ds).length = ds.length + 2 := rfl
          by_cases h1 : c = '"'
          · rw [h1] at hu
            simp [specUnterminated] at hu
          · by_cases h2 : c = bslash
            · have hu' : specUnterminated ds = true := by
                simpa [specUnterminated, h1, h2, bslash_ne_dquote] using hu
              obtain ⟨hr, ht⟩ := ih ds (by omega) hu'
              simp [lexStr, specStrText, h1, h2, hr, ht, bslash_ne_dquote]
            · have hu' : specUnterminated (d :: ds) = true := by
                simpa [specUnterminated, h1, h2] using hu
              have h3 : (d :: ds).length = ds.length + 1 := rfl
              obtain ⟨hr, ht⟩ := ih (d :: ds) (by omega) hu'
              simp [lexStr, specStrText, h1, h2, hr, ht]
  exact fun xs => key xs.length xs le_rfl

/-- A character that matches none of the lexer's branches. -/
def unrecognizedChar (c : Char) : Bool :=
  !(isJsWs c) && !(c = '/') && !(c = '=') && (singleTok c).isNone
    && !(c = '"') && !(isWordStart c) && !(isDigitCh c)

/-- Claim C7: `lex` is a total function (the embedding terminates on every
input by construction and raises nothing); its token list always ends with
the end-of-input token; an unrecognized character is silently skipped; and
`//` and closed `/* */` comments are discarded, also when they are
unterminated at end of input. -/
theorem claim_C7_theorem (src xs : List Char) (c : Char) :
    (∃ ts ln cn, lex src = ts ++ [⟨TokType.EOF, none, ln, cn⟩])
    ∧ (unrecognizedChar c = true → lexKV (lex (c :: src)) = lexKV (lex src))
    ∧ ('\n' ∉ xs →
        lexKV (lex ('/' :: '/' :: (xs ++ '\n' :: src))) =
          lexKV (lex ('\n' :: src)))
    ∧ ('\n' ∉ xs → lexKV (lex ('/' :: '/' :: xs)) = [(TokType.EOF, none)])
    ∧ (containsSeq ['*', '/'] xs = false →
        lexKV (lex ('/' :: '*' :: (xs ++ '*' :: '/' :: src))) = lexKV (lex src))
    ∧ (containsSeq ['*', '/'] xs = false →
        lexKV (lex ('/' :: '*' :: xs)) = [(TokType.EOF, none)]) := by
  refine ⟨lexAux_ends_eof (src.length + 1) src ⟨1, 1⟩, ?_, ?_, ?_, ?_, ?_⟩
  · intro hc
    simp only [unrecognizedChar, Bool.and_eq_true, Bool.not_eq_true'] at hc
    obtain ⟨⟨⟨⟨⟨⟨hws, hsl⟩, heq⟩, hsn⟩, hdq⟩, hw⟩, hd⟩ := hc
    have hsn' : singleTok c = none := Option.isNone_iff_eq_none.mp hsn
    have hA : ¬ (c = '/') := of_decide_eq_false hsl
    have hB : ¬ (c = '=') := of_decide_eq_false heq
    have hDQ : ¬ (c = '"') := of_decide_eq_false hdq
    have hlen : (c :: src).length = src.length + 1 := rfl
    show lexKV (lexAux ((c :: src).length + 1) (c :: src) ⟨1, 1⟩) = _
    rw [hlen]
    simp only [lexAux, hws, Bool.false_eq_true, if_false, hsn', hw, hd,
      if_neg (fun h : _ ∧ _ => hA h.1), if_neg (fun h : _ ∧ _ => hB h.1),
      if_neg hDQ]
    exact lexKV_inv src.length src le_rfl (src.length + 1) (src.length + 1)
      _ _ (by omega) (by omega)
  · intro hnx
    have hall : ∀ x ∈ ('/' :: '/' :: xs), (fun y => decide (y ≠ '\n')) x = true := by
      intro x hx
      rcases List.mem_cons.mp hx with rfl | hx2
      · decide
      rcases List.mem_cons.mp hx2 with rfl | hx3
      · decide
      · have hxne : x ≠ '\n' := by
          intro hEq
          rw [hEq] at hx3
          exact hnx hx3
        simpa using hxne
    have hshape : ('/' :: '/' :: (xs ++ '\n' :: src)) =
        ('/' :: '/' :: xs) ++ ('\n' :: src) := by simp
    have hlen : ('/' :: '/' :: (xs ++ '\n' :: src)).length =
        xs.length + src.length + 3 := by
      simp only [List.length_cons, List.length_append]
      omega
    have hlen2 : ('\n' :: src).length = src.length + 1 := rfl
    have hcond : (('/' : Char) = '/' ∧
        (('/' : Char) :: (xs ++ '\n' :: src)).head? = some '/') := ⟨rfl, rfl⟩
    have hdrop : (('/' : Char) :: '/' :: (xs ++ '\n' :: src)).dropWhile
        (fun y => decide (y ≠ '\n')) = '\n' :: src := by
      rw [hshape, dropWhile_append_all ('/' :: '/' :: xs) ('\n' :: src) hall,
        List.dropWhile_cons, if_neg (by decide)]
    show lexKV (lexAux (('/' :: '/' :: (xs ++ '\n' :: src)).length + 1)
        ('/' :: '/' :: (xs ++ '\n' :: src)) ⟨1, 1⟩) = _
    rw [hlen]
    simp only [lexAux, show isJsWs '/' = false from by decide, Bool.false_eq_true,
      if_false, if_pos hcond, hdrop]
    exact lexKV_inv ('\n' :: src).length ('\n' :: src) le_rfl
      (xs.length + src.length + 3) (('\n' :: src).length + 1) _ _
      (by rw [hlen2]; omega) (by omega)
  · intro hnx
    have hall : ∀ x ∈ ('/' :: '/' :: xs), (fun y => decide (y ≠ '\n')) x = true := by
      intro x hx
      rcases List.mem_cons.mp hx with rfl | hx2
      · decide
      rcases List.mem_cons.mp hx2 with rfl | hx3
      · decide
      · have hxne : x ≠ '\n' := by
          intro hEq
          rw [hEq] at hx3
          exact hnx hx3
        simpa using hxne
    have hlen : ('/' :: '/' :: xs).length = xs.length + 2 := by
      simp only [List.length_cons]
    have hcond : (('/' : Char) = '/' ∧
        (('/' : Char) :: xs).head? = some '/') := ⟨rfl, rfl⟩
    have hdrop : (('/' : Char) :: '/' :: xs).dropWhile
        (fun y => decide (y ≠ '\n')) = [] :=
      List.dropWhile_eq_nil_iff.mpr hall
    show lexKV (lexAux (('/' :: '/' :: xs).length + 1)
        ('/' :: '/' :: xs) ⟨1, 1⟩) = _
    rw [hlen]
    simp only [lexAux, show isJsWs '/' = false from by decide, Bool.false_eq_true,
      if_false, if_pos hcond, hdrop]
    simp [lexAux, lexKV, tokKV]
  · intro hxs
    have hlen : ('/' :: '*' :: (xs ++ '*' :: '/' :: src)).length =
        xs.length + src.length + 4 := by
      simp only [List.length_cons, List.length_append]
      omega
    have hcond : (('/' : Char) = '/' ∧ (some '*' : Option Char) = some '*') :=
      ⟨rfl, rfl⟩
    show lexKV (lexAux (('/' :: '*' :: (xs ++ '*' :: '/' :: src)).length + 1)
        ('/' :: '*' :: (xs ++ '*' :: '/' :: src)) ⟨1, 1⟩) = _
    rw [hlen]
    simp only [lexAux, show isJsWs '/' = false from by decide, Bool.false_eq_true,
      if_false, List.head?_cons,
      if_neg (by simp : ¬ (('/' : Char) = '/' ∧ some '*' = some '/')),
      if_pos hcond]
    rw [blockSplit_append xs src hxs]
    exact lexKV_inv src.length src le_rfl _ _ _ _ (by omega) (by omega)
  · intro hxs
    have hlen : ('/' :: '*' :: xs).length = xs.length + 2 := by
      simp only [List.length_cons]
    have hcond : (('/' : Char) = '/' ∧ (some '*' : Option Char) = some '*') :=
      ⟨rfl, rfl⟩
    show lexKV (lexAux (('/' :: '*' :: xs).length + 1)
        ('/' :: '*' :: xs) ⟨1, 1⟩) = _
    rw [hlen]
    simp only [lexAux, show isJsWs '/' = false from by decide, Bool.false_eq_true,
      if_false, List.head?_cons,
      if_neg (by simp : ¬ (('/' : Char) = '/' ∧ some '*' = some '/')),
      if_pos hcond]
    rw [blockSplit_none xs hxs]
    simp [lexAux, lexKV, tokKV]

/-- Witness for `claim_C7_theorem` with concrete source, comment body and
skipped character. -/
theorem claim_C7_witness :
    unrecognizedChar '@' = true
    ∧ lexKV (lex ('@' :: 'a' :: [])) = lexKV (lex ['a'])
    ∧ ('\n' ∉ ['z'])
    ∧ lexKV (lex ('/' :: '/' :: (['z'] ++ '\n' :: 'a' :: []))) =
        lexKV (lex ('\n' :: 'a' :: []))
    ∧ containsSeq ['*', '/'] ['z'] = false
    ∧ lexKV (lex ('/' :: '*' :: (['z'] ++ '*' :: '/' :: 'a' :: []))) =
        lexKV (lex ['a']) := by
  have h := claim_C7_theorem ['a'] ['z'] '@'
  exact ⟨by decide, h.2.1 (by decide), by decide, h.2.2.1 (by decide),
    by decide, h.2.2.2.2.1 (by decide)⟩

/-- Claim C10, counterexample: on the unterminated literal `"a\` (input
ends on a backslash inside the string), the emitted STRING token's text is
`aundefined` — the JS coercion of reading past the end — which is neither
`everything after the opening quote` (`a\`) nor any substring of the
input. -/
theorem claim_C10_counterexample :
    lexKV (lex ['"', 'a', bslash]) =
      [(TokType.STRING, some "aundefined"), (TokType.EOF, none)]
    ∧ ("aundefined" : String) ≠ String.mk ['a', bslash]
    ∧ containsSeq ("aundefined").data ['"', 'a', bslash] = false := by
  refine ⟨?_, by decide, by decide⟩
  decide

/-- Claim C10 (amended): on a double-quoted literal left unterminated at
end of input, `lex` reports nothing to the caller and emits a STRING token
whose text is everything after the opening quote with each backslash
consuming the following character — plus the literal characters
`undefined` when the input ends on an unpaired backslash — followed by the
end-of-input token. -/
theorem claim_C10_theorem (xs : List Char) (h : specUnterminated xs = true) :
    lexKV (lex ('"' :: xs)) =
      [(TokType.STRING, some (String.mk (specStrText xs))), (TokType.EOF, none)] := by
  obtain ⟨hrest, htext⟩ := lexStr_spec xs h
  have hlen : ('"' :: xs).length = xs.length + 1 := rfl
  show lexKV (lexAux (('"' :: xs).length + 1) ('"' :: xs) ⟨1, 1⟩) = _
  rw [hlen]
  simp only [lexAux, show isJsWs '"' = false from by decide, Bool.false_eq_true,
    if_false,
    show singleTok '"' = none from by decide,
    if_neg (by simp : ¬ (('"' : Char) = '/' ∧ xs.head? = some '/')),
    if_neg (by simp : ¬ (('"' : Char) = '/' ∧ xs.head? = some '*')),
    if_neg (by simp : ¬ (('"' : Char) = '=' ∧ xs.head? = some '>')),
    if_pos rfl]
  rw [hrest, htext]
  simp [lexAux, lexKV, tokKV]

/-- Witness for `claim_C10_theorem` on the unterminated literal `"ab`. -/
theorem claim_C10_witness :
    specUnterminated ['a', 'b'] = true
    ∧ lexKV (lex ['"', 'a', 'b']) =
      [(TokType.STRING, some (String.mk (specStrText ['a', 'b']))),
        (TokType.EOF, none)] :=
  ⟨by decide, claim_C10_theorem ['a', 'b'] (by decide)⟩

/-!
### The parser (`parse`)

`parse(source)` lexes the source and runs a hand-written cursor over the
token list, building `{ dataBlocks, doBlocks, routeLines,
migrations, imports }`.  All of its state (`pos` and the accumulated `ast`) is local;
the embedding threads it explicitly.  Every `while` loop is given fuel
`tokens.length + 2`: each of the original's loops either advances the
cursor by at least one token per iteration or throws, except that the
top-level loop spins forever when the cursor has moved past the final EOF
token (reachable when the token-level brace depth of a `do` body disagrees
with the character-level scan, e.g. a brace inside single-quoted text);
`ParseErr.fuel` marks exactly those diverging runs.
-/

/-- A pipeline step of a route line. -/
inductive PipelineStep
  | validate (schema : String)
  | auth
  | action (name : String)
deriving DecidableEq

/-- A value stored in `typeArgs`: `isNaN(Number(v)) ? v : Number(v)` keeps
the identifier text or its numeric value (integer literals, as in
`jsStrToNumber`), and the `enum` key accumulates an array of names. -/
inductive ArgVal
  | str (s : String)
  | num (n : Int)
  | strList (l : List String)
deriving DecidableEq

/-- A parsed field `{ name, type, optional, args }`. -/
structure FieldDef where
  name : String
  ftype : String
  optional : Bool
  args : List (String × ArgVal)
deriving DecidableEq

/-- A parsed `data` block. -/
structure DataBlock where
  name : String
  fields : List FieldDef
deriving DecidableEq

/-- A parsed `do` block (raw body text and the keyword's line). -/
structure DoBlock where
  name : String
  body : String
  line : Nat
deriving DecidableEq

/-- A parsed route line. -/
structure RouteLine where
  method : String
  path : String
  pipeline : List PipelineStep
deriving DecidableEq

/-- One migration operation `{ op, table, column?, type? }`. -/
structure MigOp where
  op : String
  table : String
  column : Option String
  ctype : Option String
deriving DecidableEq

/-- A parsed `migration` block. -/
structure Migration where
  version : String
  operations : List MigOp
deriving DecidableEq

/-- A parsed `import` statement. -/
structure ImportDecl where
  path : String
deriving DecidableEq

/-- The syntax tree returned by `parse`. -/
structure AST where
  dataBlocks : List DataBlock
  doBlocks : List DoBlock
  routeLines : List RouteLine
  migrations : List Migration
  imports : List ImportDecl
deriving DecidableEq

/-- Errors thrown during parsing.  `jsTypeError` models reading a property
of `undefined`; `fuel` marks runs on which the original never terminates
(see the section comment). -/
inductive ParseErr
  | unexpectedEof
  | expectedType (line : Nat) (want got : TokType)
  | expectedValue (line : Nat) (want : String)
  | lineNotFound (line : Nat)
  | unbalanced
  | jsTypeError
  | fuel
deriving DecidableEq

/-- A token's `.value` as the string the parser stores (the `getD` branch
is unreachable for the token kinds the parser consumes by value, whose
values the lexer always sets). -/
def tokValue (t : Token) : String := t.value.getD "undefined"

/-- `consume(type, value)`: fail on end of tokens, a type mismatch, or
(when `value` is given) a value mismatch; otherwise return the token and
the advanced cursor. -/
def consumeT (tokens : List Token) (pos : Nat) (ty : TokType)
    (val : Option String) : Except ParseErr (Token × Nat) :=
  match tokens.get? pos with
  | none => Except.error ParseErr.unexpectedEof
  | some t =>
    if t.ttype ≠ ty then Except.error (ParseErr.expectedType t.line ty t.ttype)
    else
      match val with
      | some v =>
        if t.value ≠ some v then Except.error (ParseErr.expectedValue t.line v)
        else Except.ok (t, pos + 1)
      | none => Except.ok (t, pos + 1)

/-- `check(type, value)`. -/
def checkT (tokens : List Token) (pos : Nat) (ty : TokType)
    (val : Option String) : Bool :=
  match tokens.get? pos with
  | none => false
  | some t =>
    t.ttype == ty &&
      (match val with
       | none => true
       | some v => t.value == some v)

/-- `typeArgs[k] = v`: replace the first binding of `k`, else append. -/
def setArg : List (String × ArgVal) → String → ArgVal → List (String × ArgVal)
  | [], k, v => [(k, v)]
  | (k0, w) :: rest, k, v =>
    if k0 = k then (k, v) :: rest else (k0, w) :: setArg rest k v

/-- `typeArgs[k]` (`none` = key absent). -/
def lookupArg : List (String × ArgVal) → String → Option ArgVal
  | [], _ => none
  | (k0, v) :: rest, k => if k0 = k then some v else lookupArg rest k

/-- JS truthiness of a stored argument value (arrays, even empty ones, are
truthy). -/
def argTruthy : ArgVal → Bool
  | ArgVal.str s => s != ""
  | ArgVal.num n => n != 0
  | ArgVal.strList _ => true

/-- `isNaN(Number(v)) ? v : Number(v)`. -/
def argOfIdent (v : String) : ArgVal :=
  match jsStrToNumber v with
  | some n => ArgVal.num n
  | none => ArgVal.str v

/-- `if (!typeArgs.enum) typeArgs.enum = []; typeArgs.enum.push(k)`: a
missing or falsy `enum` binding is replaced by a fresh array before the
push; pushing onto a truthy non-array value is a TypeError. -/
def pushEnum (args : List (String × ArgVal)) (k : String) :
    Except ParseErr (List (String × ArgVal)) :=
  match lookupArg args "enum" with
  | none => Except.ok (setArg args "enum" (ArgVal.strList [k]))
  | some (ArgVal.strList l) =>
    Except.ok (setArg args "enum" (ArgVal.strList (l ++ [k])))
  | some w =>
    if argTruthy w then Except.error ParseErr.jsTypeError
    else Except.ok (setArg args "enum" (ArgVal.strList [k]))

/-- The type-argument loop: until `)` or EOF, pipes and commas are
separators, `k: v` stores a string-or-number, a bare identifier
accumulates into `enum`.  A separator's `consume(tokens[pos].type)`
always succeeds and is modelled as the cursor step. -/
def parseArgsLoop (tokens : List Token) :
    Nat → Nat → List (String × ArgVal) →
      Except ParseErr (List (String × ArgVal) × Nat)
  | 0, _, _ => Except.error ParseErr.fuel
  | fuel + 1, pos, args =>
    if checkT tokens pos TokType.RPAREN none ||
        checkT tokens pos TokType.EOF none then
      Except.ok (args, pos)
    else if checkT tokens pos TokType.PIPE none ||
        checkT tokens pos TokType.COMMA none then
      parseArgsLoop tokens fuel (pos + 1) args
    else do
      let (kt, pos1) ← consumeT tokens pos TokType.IDENT none
      let k := tokValue kt
      if checkT tokens pos1 TokType.COLON none then do
        let (_, pos2) ← consumeT tokens pos1 TokType.COLON none
        let (vt, pos3) ← consumeT tokens pos2 TokType.IDENT none
        parseArgsLoop tokens fuel pos3 (setArg args k (argOfIdent (tokValue vt)))
      else do
        let args2 ← pushEnum args k
        parseArgsLoop tokens fuel pos1 args2

/-- The field loop of a `data` block: until `}` or EOF, commas are
skipped, each field reads `name : Type` with optional `( args )` and a
trailing `?`. -/
def parseFieldsLoop (tokens : List Token) :
    Nat → Nat → List FieldDef → Except ParseErr (List FieldDef × Nat)
  | 0, _, _ => Except.error ParseErr.fuel
  | fuel + 1, pos, fields =>
    if checkT tokens pos TokType.RBRACE none ||
        checkT tokens pos TokType.EOF none then
      Except.ok (fields, pos)
    else if checkT tokens pos TokType.COMMA none then
      parseFieldsLoop tokens fuel (pos + 1) fields
    else do
      let (nt, pos1) ← consumeT tokens pos TokType.IDENT none
      let (_, pos2) ← consumeT tokens pos1 TokType.COLON none
      let (yt, pos3) ← consumeT tokens pos2 TokType.IDENT none
      let (args, pos4) ←
        if checkT tokens pos3 TokType.LPAREN none then do
          let (_, pos3a) ← consumeT tokens pos3 TokType.LPAREN none
          let (args, pos3b) ← parseArgsLoop tokens (tokens.length + 2) pos3a []
          let (_, pos3c) ← consumeT tokens pos3b TokType.RPAREN none
          pure (args, pos3c)
        else pure (([] : List (String × ArgVal)), pos3)
      let (opt, pos5) :=
        if checkT tokens pos4 TokType.QUESTION none then (true, pos4 + 1)
        else (false, pos4)
      parseFieldsLoop tokens fuel pos5
        (fields ++ [⟨tokValue nt, tokValue yt, opt, args⟩])

/-- The `do`-header parameter loop: skip to the closing parenthesis (a
comma is consumed, anything else is stepped over; both advance by one). -/
def doParamsLoop (tokens : List Token) : Nat → Nat → Except ParseErr Nat
  | 0, _ => Except.error ParseErr.fuel
  | fuel + 1, pos =>
    if checkT tokens pos TokType.RPAREN none ||
        checkT tokens pos TokType.EOF none then
      Except.ok pos
    else doParamsLoop tokens fuel (pos + 1)

/-- The token-level brace-depth loop that skips a `do` body: runs while
the cursor is in range and the depth is positive; the closing brace that
brings the depth to zero is consumed and the loop breaks. -/
def skipDoBody (tokens : List Token) : Nat → Nat → Nat → Except ParseErr Nat
  | 0, _, _ => Except.error ParseErr.fuel
  | fuel + 1, pos, depth =>
    if pos < tokens.length ∧ 0 < depth then
      if checkT tokens pos TokType.LBRACE none then
        skipDoBody tokens fuel (pos + 1) (depth + 1)
      else if checkT tokens pos TokType.RBRACE none then
        if depth = 1 then Except.ok (pos + 1)
        else skipDoBody tokens fuel (pos + 1) (depth - 1)
      else skipDoBody tokens fuel (pos + 1) depth
    else Except.ok pos

/-- The route pipeline loop: read steps until EOF, the next HTTP method,
the closing brace, or (when the pipeline was opened with a bracket) a
closing bracket; commas are skipped; `validate(S)`, `auth` and action
names become the three step kinds. -/
def routePipelineLoop (tokens : List Token) (inBracket : Bool) :
    Nat → Nat → List PipelineStep →
      Except ParseErr (List PipelineStep × Nat)
  | 0, _, _ => Except.error ParseErr.fuel
  | fuel + 1, pos, pipeline =>
    if checkT tokens pos TokType.EOF none ||
        checkT tokens pos TokType.HTTP_METHOD none ||
        checkT tokens pos TokType.RBRACE none ||
        (inBracket && checkT tokens pos TokType.RBRACKET none) then
      Except.ok (pipeline, pos)
    else if checkT tokens pos TokType.COMMA none then
      routePipelineLoop tokens inBracket fuel (pos + 1) pipeline
    else do
      let (it, pos1) ← consumeT tokens pos TokType.IDENT none
      let ident := tokValue it
      if ident == "validate" && checkT tokens pos1 TokType.LPAREN none then do
        let (_, pos2) ← consumeT tokens pos1 TokType.LPAREN none
        let (st, pos3) ← consumeT tokens pos2 TokType.IDENT none
        let (_, pos4) ← consumeT tokens pos3 TokType.RPAREN none
        routePipelineLoop tokens inBracket fuel pos4
          (pipeline ++ [PipelineStep.validate (tokValue st)])
      else if ident == "auth" then
        routePipelineLoop tokens inBracket fuel pos1
          (pipeline ++ [PipelineStep.auth])
      else
        routePipelineLoop tokens inBracket fuel pos1
          (pipeline ++ [PipelineStep.action ident])

/-- The route-block loop: non-method tokens are stepped over; each method
line reads the method, a string path and the arrow, optionally opens a
bracket (the `inBracket` flag re-reads the previous token's value), runs
the pipeline loop and optionally closes the bracket. -/
def routeLinesLoop (tokens : List Token) :
    Nat → Nat → List RouteLine → Except ParseErr (List RouteLine × Nat)
  | 0, _, _ => Except.error ParseErr.fuel
  | fuel + 1, pos, routes =>
    if checkT tokens pos TokType.RBRACE none ||
        checkT tokens pos TokType.EOF none then
      Except.ok (routes, pos)
    else if !(checkT tokens pos TokType.HTTP_METHOD none) then
      routeLinesLoop tokens fuel (pos + 1) routes
    else do
      let (mt, pos1) ← consumeT tokens pos TokType.HTTP_METHOD none
      let (pt, pos2) ← consumeT tokens pos1 TokType.STRING none
      let (_, pos3) ← consumeT tokens pos2 TokType.FAT_ARROW none
      let pos4 := if checkT tokens pos3 TokType.LBRACKET none then pos3 + 1 else pos3
      let inBracket :=
        match tokens.get? (pos4 - 1) with
        | some t => t.value == some "["
        | none => false
      let (pipeline, pos5) ←
        routePipelineLoop tokens inBracket (tokens.length + 2) pos4 []
      let pos6 :=
        if inBracket && checkT tokens pos5 TokType.RBRACKET none then pos5 + 1
        else pos5
      routeLinesLoop tokens fuel pos6
        (routes ++ [⟨tokValue mt, tokValue pt, pipeline⟩])

/-- The migration-operations loop: each operation reads an identifier and
a string table name, plus a column for `dropColumn` and a column and type
for `addColumn`. -/
def migOpsLoop (tokens : List Token) :
    Nat → Nat → List MigOp → Except ParseErr (List MigOp × Nat)
  | 0, _, _ => Except.error ParseErr.fuel
  | fuel + 1, pos, ops =>
    if checkT tokens pos TokType.RBRACE none ||
        checkT tokens pos TokType.EOF none then
      Except.ok (ops, pos)
    else do
      let (ot, pos1) ← consumeT tokens pos TokType.IDENT none
      let (bt, pos2) ← consumeT tokens pos1 TokType.STRING none
      let op := tokValue ot
      let table := tokValue bt
      if op == "addColumn" then do
        let (ct, pos3) ← consumeT tokens pos2 TokType.IDENT none
        let (yt, pos4) ← consumeT tokens pos3 TokType.IDENT none
        migOpsLoop tokens fuel pos4
          (ops ++ [⟨op, table, some (tokValue ct), some (tokValue yt)⟩])
      else if op == "dropColumn" then do
        let (ct, pos3) ← consumeT tokens pos2 TokType.IDENT none
        migOpsLoop tokens fuel pos3
          (ops ++ [⟨op, table, some (tokValue ct), none⟩])
      else
        migOpsLoop tokens fuel pos2 (ops ++ [⟨op, table, none, none⟩])

/-- The top-level statement loop of `parse`, in the original's branch
order: import, data, do, route, migration, else step.  The `do` branch
locates the opening brace in the source before consuming it, extracts the
raw body after, and then skips the body at token level. -/
def topLoop (source : List Char) (tokens : List Token) :
    Nat → Nat → AST → Except ParseErr AST
  | 0, _, _ => Except.error ParseErr.fuel
  | fuel + 1, pos, ast =>
    if checkT tokens pos TokType.EOF none then Except.ok ast
    else if checkT tokens pos TokType.KEYWORD (some "import") then do
      let (_, pos1) ← consumeT tokens pos TokType.KEYWORD none
      let (pt, pos2) ← consumeT tokens pos1 TokType.STRING none
      topLoop source tokens fuel pos2
        { ast with imports := ast.imports ++ [⟨tokValue pt⟩] }
    else if checkT tokens pos TokType.KEYWORD (some "data") then do
      let (_, pos1) ← consumeT tokens pos TokType.KEYWORD none
      let (nt, pos2) ← consumeT tokens pos1 TokType.IDENT none
      let (_, pos3) ← consumeT tokens pos2 TokType.LBRACE none
      let (fields, pos4) ← parseFieldsLoop tokens (tokens.length + 2) pos3 []
      let (_, pos5) ← consumeT tokens pos4 TokType.RBRACE none
      topLoop source tokens fuel pos5
        { ast with dataBlocks := ast.dataBlocks ++ [⟨tokValue nt, fields⟩] }
    else if checkT tokens pos TokType.KEYWORD (some "do") then do
      let (kt, pos1) ← consumeT tokens pos TokType.KEYWORD none
      let (nt, pos2) ← consumeT tokens pos1 TokType.IDENT none
      let (_, pos3) ← consumeT tokens pos2 TokType.LPAREN none
      let pos4 ← doParamsLoop tokens (tokens.length + 2) pos3
      let (_, pos5) ← consumeT tokens pos4 TokType.RPAREN none
      let lbrace ←
        match tokens.get? pos5 with
        | some t => pure t
        | none => Except.error ParseErr.jsTypeError
      let openIdx ←
        match locateBraceInSource source lbrace.line with
        | some i => pure i
        | none => Except.error (ParseErr.lineNotFound lbrace.line)
      let (_, pos6) ← consumeT tokens pos5 TokType.LBRACE none
      let raw ←
        match extractRawBlock source openIdx with
        | some r => pure r
        | none => Except.error ParseErr.unbalanced
      let pos7 ← skipDoBody tokens (tokens.length + 2) pos6 1
      topLoop source tokens fuel pos7
        { ast with doBlocks := ast.doBlocks ++ [⟨tokValue nt, String.mk raw.1, kt.line⟩] }
    else if checkT tokens pos TokType.KEYWORD (some "route") then do
      let (_, pos1) ← consumeT tokens pos TokType.KEYWORD none
      let (_, pos2) ← consumeT tokens pos1 TokType.LBRACE none
      let (routes, pos3) ← routeLinesLoop tokens (tokens.length + 2) pos2 []
      let (_, pos4) ← consumeT tokens pos3 TokType.RBRACE none
      topLoop source tokens fuel pos4
        { ast with routeLines := ast.routeLines ++ routes }
    else if checkT tokens pos TokType.KEYWORD (some "migration") then do
      let (_, pos1) ← consumeT tokens pos TokType.KEYWORD none
      let (vt, pos2) ← consumeT tokens pos1 TokType.STRING none
      let (_, pos3) ← consumeT tokens pos2 TokType.LBRACE none
      let (ops, pos4) ← migOpsLoop tokens (tokens.length + 2) pos3 []
      let (_, pos5) ← consumeT tokens pos4 TokType.RBRACE none
      topLoop source tokens fuel pos5
        { ast with migrations := ast.migrations ++ [⟨tokValue vt, ops⟩] }
    else topLoop source tokens fuel (pos + 1) ast

/-- `parse(source)`. -/
def parse (source : List Char) : Except ParseErr AST :=
  let tokens := lex source
  topLoop source tokens (tokens.length + 2) 0 ⟨[], [], [], [], []⟩

/-- A sample program exercising imports, data fields with named and enum
arguments and the optional marker, a bracketed route pipeline, and a
migration. -/
def sampleSrc : List Char :=
  "import \"lib\" data A ".data
    ++ '{' :: " x: String(min: 3) y: Enum(a b)? ".data
    ++ '}' :: " route ".data
    ++ '{' :: " GET \"/a\" => [auth, act] ".data
    ++ '}' :: " migration \"m1\" ".data
    ++ '{' :: " createTable \"A\" ".data ++ ['}']

/-- The tree `parse` returns on `sampleSrc`. -/
def sampleAST : AST where
  dataBlocks :=
    [⟨"A",
      [⟨"x", "String", false, [("min", ArgVal.num 3)]⟩,
       ⟨"y", "Enum", true, [("enum", ArgVal.strList ["a", "b"])]⟩]⟩]
  doBlocks := []
  routeLines := [⟨"GET", "/a", [PipelineStep.auth, PipelineStep.action "act"]⟩]
  migrations := [⟨"m1", [⟨"createTable", "A", none, none⟩]⟩]
  imports := [⟨"lib"⟩]

set_option maxRecDepth 8000 in
/-- **C8.**  `parse` is deterministic: its entire state (the token cursor
and the accumulated tree) is local, so it is a pure function of the source
text alone and two runs on the same text yield structurally equal trees
(`AST` carries decidable structural equality); on the representative
program `sampleSrc` it returns exactly `sampleAST`. -/
theorem claim_C8_theorem :
    (∀ src : List Char, parse src = parse src) ∧
    parse sampleSrc = Except.ok sampleAST :=
  ⟨fun _ => rfl, by rfl⟩

/-!
### The module resolver (`resolveModules`)

`resolveModules(entryFile, rootDir)` loads the entry file, recursively
loads its imports depth-first (guarded by a `loading` set for cycles and a
`resolvedASTs` map for caching, the map written before the import loop
runs), and then merges the resolved trees in insertion order,
deduplicating data blocks and do blocks by name and route lines by the
string key `method + " " + path`, concatenating migrations, and
dropping imports.  Node's `fs` and `path` primitives are not part of this
repository: the filesystem is a path-to-contents list and the `path`
functions are parameters (`PathOps`).  The `finally`-deletion of the
`loading` entry is modelled by passing the set downward (an error aborts
the whole resolution in the original, so the deletion on the error path is
unobservable).
-/

/-- The `path` primitives used by the resolver, as parameters. -/
structure PathOps where
  normalize : String → String
  dirname : String → String
  isAbsolute : String → Bool
  resolve1 : String → String
  resolve2 : String → String → String

/-- Trivial path semantics for concrete runs: every path is already
absolute and normal. -/
def idOps : PathOps :=
  ⟨fun s => s, fun _ => "", fun _ => true, fun s => s, fun _ p => p⟩

/-- `p.data.isPrefixOf s.data`, i.e. JS `s.startsWith(p)`. -/
def strStartsWith (s p : String) : Bool := p.data.isPrefixOf s.data

/-- JS `s.endsWith(p)`. -/
def strEndsWith (s p : String) : Bool := p.data.isSuffixOf s.data

/-- `importPath.replace(/\.cls$/, '')`. -/
def stripCls (s : String) : String :=
  if strEndsWith s ".cls" then String.mk (s.data.take (s.data.length - 4)) else s

/-- `resolvePath(importPath, fromFile)`. -/
def resolvePath (ops : PathOps) (root : String)
    (importPath fromFile : String) : String :=
  let n0 := stripCls importPath
  let n1 := if strEndsWith n0 ".cls" then n0 else n0 ++ ".cls"
  if strStartsWith n1 "./" || strStartsWith n1 "../" then
    ops.resolve2 (ops.dirname fromFile) n1
  else if ops.isAbsolute n1 then n1
  else ops.resolve2 root n1

/-- Errors thrown while resolving modules. -/
inductive LoadErr
  | circular (path : String)
  | notFound (normalized fromPath : String)
  | parseFail (e : ParseErr)
  | fuel
deriving DecidableEq

/-- The message of the errors the resolver itself throws (parser errors
are modelled structurally and carry no message here). -/
def msgOfLoadErr : LoadErr → String
  | LoadErr.circular p =>
    "Circular dependency detected: " ++ p ++ " is already being loaded"
  | LoadErr.notFound n f => "Import not found: " ++ n ++ " (resolved from " ++ f ++ ")"
  | LoadErr.parseFail _ => ""
  | LoadErr.fuel => ""

/-- Generic association-list lookup with string keys. -/
def lookupPair {α : Type} : List (String × α) → String → Option α
  | [], _ => none
  | (k0, v) :: rest, k => if k0 = k then some v else lookupPair rest k

/-- One unit of the resolver's recursion: load a file, or work through
an import list of a loaded file (the `loading` set already holding that
file). -/
inductive LoadTask
  | file (filePath : String) (loading : List String)
  | imports (imps : List String) (fromFile : String) (loading : List String)

/-- `loadModule` and its import loop: the `loading`-set cycle guard, the
`resolvedASTs` cache (written before the import loop), the existence
check, parsing, and the depth-first recursion over imports.  Fuel
decreases on every call; the resolver fuel in `resolveModules` covers
every run of the original. -/
def loadGo (ops : PathOps) (fsys : List (String × String)) (root : String) :
    Nat → LoadTask → List (String × AST) →
      Except LoadErr (List (String × AST))
  | 0, _, _ => Except.error LoadErr.fuel
  | _ + 1, LoadTask.imports [] _ _, resolved => Except.ok resolved
  | fuel + 1, LoadTask.imports (imp :: rest) fromFile loading, resolved =>
    match loadGo ops fsys root fuel
        (LoadTask.file (resolvePath ops root imp fromFile) loading) resolved with
    | Except.error e => Except.error e
    | Except.ok resolved1 =>
      loadGo ops fsys root fuel (LoadTask.imports rest fromFile loading) resolved1
  | fuel + 1, LoadTask.file filePath loading, resolved =>
    let np := ops.normalize filePath
    if np ∈ loading then Except.error (LoadErr.circular np)
    else if (lookupPair resolved np).isSome then Except.ok resolved
    else
      match lookupPair fsys np with
      | none => Except.error (LoadErr.notFound np filePath)
      | some source =>
        match parse source.data with
        | Except.error e => Except.error (LoadErr.parseFail e)
        | Except.ok ast =>
          loadGo ops fsys root fuel
            (LoadTask.imports (ast.imports.map ImportDecl.path) np (loading ++ [np]))
            (resolved ++ [(np, ast)])

/-- Fuel covering every terminating run: each parsed file contributes at
most one call per import statement (a statement takes several source
characters) plus constants. -/
def resolverFuel (fsys : List (String × String)) : Nat :=
  (fsys.map (fun p => 2 * p.2.length + 4)).sum + 4

/-- One deduplicating push loop of the merge (`seen`-set keyed by a
string): first occurrence wins, later ones are dropped. -/
def dedupPush {α : Type} (key : α → String) :
    List α → List String → List α → List α × List String
  | [], seen, acc => (acc, seen)
  | b :: rest, seen, acc =>
    if key b ∈ seen then dedupPush key rest seen acc
    else dedupPush key rest (seen ++ [key b]) (acc ++ [b])

/-- The route dedup key `` `${r.method} ${r.path}` ``. -/
def routeKey (r : RouteLine) : String := r.method ++ " " ++ r.path

/-- The merge loop over the resolved trees in insertion order. -/
def mergeGo : List (String × AST) → AST → List String → List String →
    List String → AST
  | [], acc, _, _, _ => acc
  | p :: rest, acc, sd, so, sr =>
    let dd := dedupPush DataBlock.name p.2.dataBlocks sd acc.dataBlocks
    let oo := dedupPush DoBlock.name p.2.doBlocks so acc.doBlocks
    let rr := dedupPush routeKey p.2.routeLines sr acc.routeLines
    mergeGo rest ⟨dd.1, oo.1, rr.1, acc.migrations ++ p.2.migrations, []⟩
      dd.2 oo.2 rr.2

/-- The merged tree built from the resolved trees. -/
def mergeASTs (resolved : List (String × AST)) : AST :=
  mergeGo resolved ⟨[], [], [], [], []⟩ [] [] []

/-- Concatenation of the resolved trees' migration lists, in order. -/
def allMigrations : List (String × AST) → List Migration
  | [] => []
  | p :: rest => p.2.migrations ++ allMigrations rest

/-- The body of `resolveModules` after the root and entry path are
computed: load everything, then merge. -/
def resolveModulesGo (ops : PathOps) (fsys : List (String × String))
    (root entryPath : String) : Except LoadErr AST :=
  match loadGo ops fsys root (resolverFuel fsys) (LoadTask.file entryPath []) [] with
  | Except.error e => Except.error e
  | Except.ok resolved => Except.ok (mergeASTs resolved)

/-- `resolveModules(entryFile, rootDir)`. -/
def resolveModules (ops : PathOps) (fsys : List (String × String))
    (entryFile : String) (rootDir : Option String) : Except LoadErr AST :=
  let root :=
    match rootDir with
    | some r => ops.resolve1 r
    | none => ops.dirname entryFile
  let entryPath :=
    if ops.isAbsolute entryFile then entryFile else ops.resolve2 root entryFile
  resolveModulesGo ops fsys root entryPath

/-- A mutual-import pair: `a.cls` imports `b.cls` and vice versa. -/
def cycleFs : List (String × String) :=
  [("a.cls", "import \"b.cls\""), ("b.cls", "import \"a.cls\"")]

theorem dedupPush_inv {α : Type} (key : α → String) :
    ∀ (bs : List α) (seen : List String) (acc : List α),
      ((acc.map key).Nodup) →
      (∀ n, n ∈ seen ↔ n ∈ acc.map key) →
      ((dedupPush key bs seen acc).1.map key).Nodup ∧
      (∀ n, n ∈ (dedupPush key bs seen acc).2 ↔
        n ∈ (dedupPush key bs seen acc).1.map key) ∧
      (∀ b ∈ bs, key b ∈ (dedupPush key bs seen acc).1.map key) ∧
      (∀ b ∈ acc, b ∈ (dedupPush key bs seen acc).1) := by
  intro bs
  induction bs with
  | nil =>
    intro seen acc h1 h2
    exact ⟨h1, h2, fun b hb => absurd hb (List.not_mem_nil b), fun b hb => hb⟩
  | cons b rest ih =>
    intro seen acc h1 h2
    by_cases hc : key b ∈ seen
    · have hres : dedupPush key (b :: rest) seen acc = dedupPush key rest seen acc := by
        simp [dedupPush, hc]
      obtain ⟨g1, g2, g3, g4⟩ := ih seen acc h1 h2
      rw [hres]
      refine ⟨g1, g2, ?_, g4⟩
      intro x hx
      rcases List.mem_cons.mp hx with rfl | hx2
      · have hk : key x ∈ acc.map key := (h2 (key x)).mp hc
        obtain ⟨a, ha, hka⟩ := List.mem_map.mp hk
        exact hka ▸ List.mem_map_of_mem key (g4 a ha)
      · exact g3 x hx2
    · have hres : dedupPush key (b :: rest) seen acc =
          dedupPush key rest (seen ++ [key b]) (acc ++ [b]) := by
        simp [dedupPush, hc]
      have hnb : key b ∉ acc.map key := fun hmem => hc ((h2 (key b)).mpr hmem)
      have h1a : ((acc ++ [b]).map key).Nodup := by
        rw [List.map_append]
        refine List.nodup_append.mpr ⟨h1, by simp, ?_⟩
        intro x hx hxb
        rw [List.map_singleton, List.mem_singleton] at hxb
        exact hnb (hxb ▸ hx)
      have h2a : ∀ n, n ∈ seen ++ [key b] ↔ n ∈ (acc ++ [b]).map key := by
        intro n
        simp [List.mem_append, h2 n]
      obtain ⟨g1, g2, g3, g4⟩ := ih (seen ++ [key b]) (acc ++ [b]) h1a h2a
      rw [hres]
      refine ⟨g1, g2, ?_, ?_⟩
      · intro x hx
        rcases List.mem_cons.mp hx with rfl | hx2
        · exact List.mem_map_of_mem key (g4 x (by simp))
        · exact g3 x hx2
      · intro a ha
        exact g4 a (List.mem_append_left _ ha)

theorem mergeGo_inv :
    ∀ (resolved : List (String × AST)) (acc : AST) (sd so sr : List String),
      ((acc.dataBlocks.map DataBlock.name).Nodup) →
      (∀ n, n ∈ sd ↔ n ∈ acc.dataBlocks.map DataBlock.name) →
      ((acc.doBlocks.map DoBlock.name).Nodup) →
      (∀ n, n ∈ so ↔ n ∈ acc.doBlocks.map DoBlock.name) →
      ((acc.routeLines.map routeKey).Nodup) →
      (∀ n, n ∈ sr ↔ n ∈ acc.routeLines.map routeKey) →
      acc.imports = [] →
      ((mergeGo resolved acc sd so sr).dataBlocks.map DataBlock.name).Nodup ∧
      ((mergeGo resolved acc sd so sr).doBlocks.map DoBlock.name).Nodup ∧
      ((mergeGo resolved acc sd so sr).routeLines.map routeKey).Nodup ∧
      (mergeGo resolved acc sd so sr).imports = [] ∧
      (mergeGo resolved acc sd so sr).migrations =
        acc.migrations ++ allMigrations resolved ∧
      (∀ b ∈ acc.dataBlocks, b ∈ (mergeGo resolved acc sd so sr).dataBlocks) ∧
      (∀ b ∈ acc.doBlocks, b ∈ (mergeGo resolved acc sd so sr).doBlocks) ∧
      (∀ r ∈ acc.routeLines, r ∈ (mergeGo resolved acc sd so sr).routeLines) ∧
      (∀ p ∈ resolved, ∀ b ∈ p.2.dataBlocks,
        b.name ∈ (mergeGo resolved acc sd so sr).dataBlocks.map DataBlock.name) ∧
      (∀ p ∈ resolved, ∀ b ∈ p.2.doBlocks,
        b.name ∈ (mergeGo resolved acc sd so sr).doBlocks.map DoBlock.name) ∧
      (∀ p ∈ resolved, ∀ r ∈ p.2.routeLines,
        routeKey r ∈ (mergeGo resolved acc sd so sr).routeLines.map routeKey) := by
  intro resolved
  induction resolved with
  | nil =>
    intro acc sd so sr h1 _ h3 _ h5 _ h7
    refine ⟨h1, h3, h5, h7, by simp [mergeGo, allMigrations], ?_, ?_, ?_, ?_, ?_, ?_⟩
    · intro b hb; exact hb
    · intro b hb; exact hb
    · intro r hr; exact hr
    · intro p hp; cases hp
    · intro p hp; cases hp
    · intro p hp; cases hp
  | cons p rest ih =>
    intro acc sd so sr h1 h2 h3 h4 h5 h6 h7
    obtain ⟨d1, d2, d3, d4⟩ := dedupPush_inv DataBlock.name p.2.dataBlocks sd acc.dataBlocks h1 h2
    obtain ⟨o1, o2, o3, o4⟩ := dedupPush_inv DoBlock.name p.2.doBlocks so acc.doBlocks h3 h4
    obtain ⟨r1, r2, r3, r4⟩ := dedupPush_inv routeKey p.2.routeLines sr acc.routeLines h5 h6
    have hstep : mergeGo (p :: rest) acc sd so sr =
        mergeGo rest
          ⟨(dedupPush DataBlock.name p.2.dataBlocks sd acc.dataBlocks).1,
           (dedupPush DoBlock.name p.2.doBlocks so acc.doBlocks).1,
           (dedupPush routeKey p.2.routeLines sr acc.routeLines).1,
           acc.migrations ++ p.2.migrations, []⟩
          (dedupPush DataBlock.name p.2.dataBlocks sd acc.dataBlocks).2
          (dedupPush DoBlock.name p.2.doBlocks so acc.doBlocks).2
          (dedupPush routeKey p.2.routeLines sr acc.routeLines).2 := rfl
    obtain ⟨g1, g2, g3, g4, g5, g6, g7, g8, g9, g10, g11⟩ :=
      ih ⟨(dedupPush DataBlock.name p.2.dataBlocks sd acc.dataBlocks).1,
           (dedupPush DoBlock.name p.2.doBlocks so acc.doBlocks).1,
           (dedupPush routeKey p.2.routeLines sr acc.routeLines).1,
           acc.migrations ++ p.2.migrations, []⟩
        (dedupPush DataBlock.name p.2.dataBlocks sd acc.dataBlocks).2
        (dedupPush DoBlock.name p.2.doBlocks so acc.doBlocks).2
        (dedupPush routeKey p.2.routeLines sr acc.routeLines).2
        d1 d2 o1 o2 r1 r2 rfl
    rw [hstep]
    refine ⟨g1, g2, g3, g4, ?_, ?_, ?_, ?_, ?_, ?_, ?_⟩
    · rw [g5]
      simp [allMigrations]
    · intro b hb; exact g6 b (d4 b hb)
    · intro b hb; exact g7 b (o4 b hb)
    · intro r hr; exact g8 r (r4 r hr)
    · intro q hq
      rcases List.mem_cons.mp hq with rfl | hq2
      · intro b hb
        obtain ⟨a, ha, hka⟩ := List.mem_map.mp (d3 b hb)
        exact hka ▸ List.mem_map_of_mem DataBlock.name (g6 a ha)
      · exact g9 q hq2
    · intro q hq
      rcases List.mem_cons.mp hq with rfl | hq2
      · intro b hb
        obtain ⟨a, ha, hka⟩ := List.mem_map.mp (o3 b hb)
        exact hka ▸ List.mem_map_of_mem DoBlock.name (g7 a ha)
      · exact g10 q hq2
    · intro q hq
      rcases List.mem_cons.mp hq with rfl | hq2
      · intro r hr
        obtain ⟨a, ha, hka⟩ := List.mem_map.mp (r3 r hr)
        exact hka ▸ List.mem_map_of_mem routeKey (g8 a ha)
      · exact g11 q hq2

theorem resolveModulesGo_ok (ops : PathOps) (fsys : List (String × String))
    (root entryPath : String) (ast : AST) :
    resolveModulesGo ops fsys root entryPath = Except.ok ast →
    ∃ resolved, ast = mergeASTs resolved := by
  intro h
  unfold resolveModulesGo at h
  cases hres : loadGo ops fsys root (resolverFuel fsys)
      (LoadTask.file entryPath []) [] with
  | error e => rw [hres] at h; cases h
  | ok r =>
    rw [hres] at h
    exact ⟨r, (Except.ok.inj h).symm⟩

theorem nodup_pairs_of_keys :
    ∀ rs : List RouteLine, ((rs.map routeKey).Nodup) →
      (rs.map (fun r => (r.method, r.path))).Nodup := by
  intro rs
  induction rs with
  | nil => intro _; simp
  | cons r rest ih =>
    intro h
    simp only [List.map_cons, List.nodup_cons] at h ⊢
    refine ⟨?_, ih h.2⟩
    intro hmem
    obtain ⟨r2, hr2, heq⟩ := List.mem_map.mp hmem
    apply h.1
    have hkey : routeKey r2 = routeKey r := by
      have hm : r2.method = r.method := congrArg Prod.fst heq
      have hp : r2.path = r.path := congrArg Prod.snd heq
      simp [routeKey, hm, hp]
    exact hkey ▸ List.mem_map_of_mem routeKey hr2

/-- **C4 (corrected).**  The cycle guard: whenever the normalized path of
the file being loaded is already in the `loading` set, `loadModule` fails
with the circular-dependency error carrying exactly that one repeated
path; the error's message names that path only — not both files and not
the chain — as the concrete mutual-import pair `cycleFs` shows end to
end. -/
theorem claim_C4_theorem :
    (∀ (ops : PathOps) (fsys : List (String × String)) (root : String)
        (fuel : Nat) (filePath : String) (loading : List String)
        (resolved : List (String × AST)),
      ops.normalize filePath ∈ loading →
      loadGo ops fsys root (fuel + 1) (LoadTask.file filePath loading) resolved =
        Except.error (LoadErr.circular (ops.normalize filePath))) ∧
    (∀ p : String, msgOfLoadErr (LoadErr.circular p) =
      "Circular dependency detected: " ++ p ++ " is already being loaded") ∧
    resolveModules idOps cycleFs "a.cls" none =
      Except.error (LoadErr.circular "a.cls") := by
  refine ⟨?_, fun p => rfl, by rfl⟩
  intro ops fsys root fuel filePath loading resolved h
  simp only [loadGo]
  rw [if_pos h]

/-- Witness for `claim_C4_theorem`: a file whose normalized path is in
the loading set is rejected by the cycle guard. -/
theorem claim_C4_witness :
    loadGo idOps [] "" 1 (LoadTask.file "x.cls" ["x.cls"]) [] =
      Except.error (LoadErr.circular "x.cls") :=
  claim_C4_theorem.1 idOps [] "" 0 "x.cls" ["x.cls"] [] (by decide)

/-- On mutual imports the error names only the re-entered file `a.cls`:
its message does not contain `b.cls`, refuting the claim that both files
(and the whole chain) are reported. -/
theorem claim_C4_counterexample :
    resolveModules idOps cycleFs "a.cls" none =
      Except.error (LoadErr.circular "a.cls") ∧
    msgOfLoadErr (LoadErr.circular "a.cls") =
      "Circular dependency detected: a.cls is already being loaded" ∧
    containsSeq "b.cls".data
      (msgOfLoadErr (LoadErr.circular "a.cls")).data = false ∧
    containsSeq "a.cls".data
      (msgOfLoadErr (LoadErr.circular "a.cls")).data = true :=
  ⟨by rfl, rfl, by decide, by decide⟩

/-- Two resolved trees with overlapping data-block names, migration
versions and route keys. -/
def demoResolved : List (String × AST) :=
  [("f.cls", ⟨[⟨"A2", []⟩], [], [⟨"GET", "/x", []⟩], [⟨"m1", []⟩], []⟩),
   ("g.cls", ⟨[⟨"A2", []⟩], [], [⟨"GET", "/x", [PipelineStep.auth]⟩],
     [⟨"m1", []⟩], []⟩)]

/-- A two-file project: the entry imports a library sharing a data-block
name. -/
def okFs : List (String × String) :=
  [("m.cls", String.mk ("import \"lib.cls\" data A ".data
      ++ '{' :: " x: String ".data ++ ['}'])),
   ("lib.cls", String.mk ("data A ".data ++ '{' :: " x: String ".data
      ++ '}' :: " data B ".data ++ '{' :: " y: String ".data ++ ['}']))]

/-- The merged tree `resolveModules` produces on `okFs`. -/
def demoMerged : AST :=
  ⟨[⟨"A", [⟨"x", "String", false, []⟩]⟩, ⟨"B", [⟨"y", "String", false, []⟩]⟩],
   [], [], [], []⟩

/-- **C5.**  The merged tree deduplicates data blocks and do blocks by
name and route lines by their `method path` key, first occurrence winning
and every input key still represented; migrations are concatenated
without deduplication; the imports list of the result is empty; and every
successful `resolveModules` run returns `mergeASTs` of its resolved
trees. -/
theorem claim_C5_theorem :
    (∀ resolved : List (String × AST),
      ((mergeASTs resolved).dataBlocks.map DataBlock.name).Nodup ∧
      ((mergeASTs resolved).doBlocks.map DoBlock.name).Nodup ∧
      ((mergeASTs resolved).routeLines.map routeKey).Nodup ∧
      ((mergeASTs resolved).routeLines.map (fun r => (r.method, r.path))).Nodup ∧
      (mergeASTs resolved).imports = [] ∧
      (mergeASTs resolved).migrations = allMigrations resolved ∧
      (∀ p ∈ resolved, ∀ b ∈ p.2.dataBlocks,
        b.name ∈ (mergeASTs resolved).dataBlocks.map DataBlock.name) ∧
      (∀ p ∈ resolved, ∀ b ∈ p.2.doBlocks,
        b.name ∈ (mergeASTs resolved).doBlocks.map DoBlock.name) ∧
      (∀ p ∈ resolved, ∀ r ∈ p.2.routeLines,
        routeKey r ∈ (mergeASTs resolved).routeLines.map routeKey)) ∧
    (∀ (ops : PathOps) (fsys : List (String × String)) (entryFile : String)
        (rootDir : Option String) (ast : AST),
      resolveModules ops fsys entryFile rootDir = Except.ok ast →
      ∃ resolved, ast = mergeASTs resolved) := by
  constructor
  · intro resolved
    obtain ⟨g1, g2, g3, g4, g5, _, _, _, g9, g10, g11⟩ :=
      mergeGo_inv resolved ⟨[], [], [], [], []⟩ [] [] []
        (by simp) (by simp) (by simp) (by simp) (by simp) (by simp) rfl
    exact ⟨g1, g2, g3, nodup_pairs_of_keys _ g3, g4, g5, g9, g10, g11⟩
  · intro ops fsys entryFile rootDir ast h
    exact resolveModulesGo_ok ops fsys _ _ ast h

/-- Witness for `claim_C5_theorem` on concrete inputs: overlapping names
merge to one entry, migrations concatenate, and a successful end-to-end
resolution is `mergeASTs` of its resolved trees. -/
theorem claim_C5_witness :
    (("A2" : String) ∈ (mergeASTs demoResolved).dataBlocks.map DataBlock.name) ∧
    ((mergeASTs demoResolved).routeLines.map (fun r => (r.method, r.path))).Nodup ∧
    (mergeASTs demoResolved).migrations = allMigrations demoResolved ∧
    (∃ resolved, demoMerged = mergeASTs resolved) :=
  ⟨(claim_C5_theorem.1 demoResolved).2.2.2.2.2.2.1
      ("f.cls", ⟨[⟨"A2", []⟩], [], [⟨"GET", "/x", []⟩], [⟨"m1", []⟩], []⟩)
      (by decide) ⟨"A2", []⟩ (by decide),
   (claim_C5_theorem.1 demoResolved).2.2.2.1,
   (claim_C5_theorem.1 demoResolved).2.2.2.2.2.1,
   claim_C5_theorem.2 idOps okFs "m.cls" none demoMerged (by rfl)⟩

end Codeless

